import Mathlib

/-!
# A verification model of the file-organiser engine (`app.py`)

Shallow embedding of the core of `app.py`: the extension classifier
(`get_file_category`), the organiser (`organize_files`), the restorer
(`undo_organize_files`) and the dry-run (`preview_organization`).

Modelling conventions:
* A directory tree is modelled two levels deep (the code never looks
  deeper): the root folder contains files and subfolders, and each
  subfolder contains named entries (files or directories).
* `os.listdir` order is the order of the entry list in the model, so
  quantifying over models quantifies over listing orders.
* Python's `str.lower` is modelled per-character with `Char.toLower`
  (ASCII case mapping, which agrees with Python on all the extensions
  involved).
* Exceptions that escape a function are modelled with `Except Unit`;
  environmental failures (permissions, disk errors) are injected by
  oracles: `mkFail` for `os.makedirs`, `mvFail` (indexed by loop
  iteration) for `shutil.move`.
* Calls to the progress callback and move attempts are recorded in an
  event trace so that temporal claims can be stated.
-/

namespace FileOrg

/-! ## Python string primitives -/

/-- `str.lower()` modelled character-wise (ASCII case mapping). -/
def strLower (s : String) : String := ⟨s.data.map Char.toLower⟩

theorem Char_toLower_toLower (c : Char) : c.toLower.toLower = c.toLower := by
  unfold Char.toLower
  by_cases h : c.toNat ≥ 65 ∧ c.toNat ≤ 90
  · rw [if_pos h]
    have hv : (c.toNat + 32).isValidChar := Or.inl (by omega)
    have ht : (Char.ofNat (c.toNat + 32)).toNat = c.toNat + 32 := by
      unfold Char.ofNat
      rw [dif_pos hv]
      rfl
    rw [if_neg]
    rw [ht]
    omega
  · rw [if_neg h, if_neg h]

theorem strLower_strLower (s : String) : strLower (strLower s) = strLower s := by
  unfold strLower
  simp [List.map_map, Function.comp_def, Char_toLower_toLower]

/-- Index (from the front) of the last `'.'` in a character list, if any. -/
def lastDot : List Char → Option Nat
  | [] => none
  | c :: rest =>
    match lastDot rest with
    | some i => some (i + 1)
    | none => if c = '.' then some 0 else none

/-- `os.path.splitext` on a bare file name (no directory separators):
split at the last dot, unless every character before it is a dot. -/
def splitext (s : String) : String × String :=
  match lastDot s.data with
  | none => (s, "")
  | some i =>
    if (s.data.take i).all (fun c => c == '.') then (s, "")
    else (⟨s.data.take i⟩, ⟨s.data.drop i⟩)

/-- The extension of a file name, lowered: `os.path.splitext(f)[1].lower()`. -/
def extOf (filename : String) : String := strLower (splitext filename).2

/-- `str(n)` for a natural number (decimal). -/
def natStr (n : Nat) : String :=
  if n = 0 then "0" else ⟨((Nat.digits 10 n).map Nat.digitChar).reverse⟩

theorem digitChar_inj_lt : ∀ a < 10, ∀ b < 10, Nat.digitChar a = Nat.digitChar b → a = b := by
  decide

theorem map_digitChar_inj : ∀ {l₁ l₂ : List Nat}, (∀ x ∈ l₁, x < 10) → (∀ x ∈ l₂, x < 10) →
    l₁.map Nat.digitChar = l₂.map Nat.digitChar → l₁ = l₂
  | [], [], _, _, _ => rfl
  | [], _ :: _, _, _, h => by simp at h
  | _ :: _, [], _, _, h => by simp at h
  | a :: l₁, b :: l₂, h₁, h₂, h => by
    simp only [List.map_cons, List.cons.injEq] at h
    have ha : a < 10 := h₁ a (List.mem_cons_self _ _)
    have hb : b < 10 := h₂ b (List.mem_cons_self _ _)
    have : a = b := digitChar_inj_lt a ha b hb h.1
    have : l₁ = l₂ := map_digitChar_inj (fun x hx => h₁ x (List.mem_cons_of_mem _ hx))
      (fun x hx => h₂ x (List.mem_cons_of_mem _ hx)) h.2
    simp_all

theorem natStr_inj {m n : Nat} (hm : 0 < m) (hn : 0 < n) (h : natStr m = natStr n) : m = n := by
  unfold natStr at h
  rw [if_neg (Nat.pos_iff_ne_zero.mp hm), if_neg (Nat.pos_iff_ne_zero.mp hn)] at h
  have hd : ((Nat.digits 10 m).map Nat.digitChar).reverse =
      ((Nat.digits 10 n).map Nat.digitChar).reverse := congrArg String.data h
  have hd' : (Nat.digits 10 m).map Nat.digitChar = (Nat.digits 10 n).map Nat.digitChar :=
    List.reverse_injective hd
  have hm10 : ∀ x ∈ Nat.digits 10 m, x < 10 := fun x hx => Nat.digits_lt_base (by norm_num) hx
  have hn10 : ∀ x ∈ Nat.digits 10 n, x < 10 := fun x hx => Nat.digits_lt_base (by norm_num) hx
  have := map_digitChar_inj hm10 hn10 hd'
  exact Nat.digits_inj_iff.mp this

/-! ## Collision-safe renaming

The `while os.path.exists(dest_path)` loops of `organize_files` and
`undo_organize_files`.  `taken` is the set of names already present at
the destination directory.  The recursion is fuelled; the fuel
`taken.length + 1` is provably sufficient because the candidate names
are pairwise distinct. -/

def resolveGo (taken : List String) (cand : Nat → String) : Nat → Nat → String
  | 0, k => cand k
  | fuel + 1, k => if (cand k) ∈ taken then resolveGo taken cand fuel (k + 1) else cand k

/-- Candidate name `f"{base}_{counter}{ext}"` used by `organize_files`. -/
def candOrg (base ext : String) (k : Nat) : String := base ++ "_" ++ natStr k ++ ext

/-- Candidate name `f"{base}_restored_{counter}{ext}"` used by `undo_organize_files`. -/
def candUndo (base ext : String) (k : Nat) : String := base ++ "_restored_" ++ natStr k ++ ext

/-- Destination-name resolution of `organize_files` (lines 90–97). -/
def resolveOrg (taken : List String) (name : String) : String :=
  if name ∈ taken then
    resolveGo taken (candOrg (splitext name).1 (splitext name).2) (taken.length + 1) 1
  else name

/-- Destination-name resolution of `undo_organize_files` (lines 147–154). -/
def resolveUndo (taken : List String) (name : String) : String :=
  if name ∈ taken then
    resolveGo taken (candUndo (splitext name).1 (splitext name).2) (taken.length + 1) 1
  else name

theorem String_append_cancel {a b : String} (c d : String)
    (h : c ++ a ++ d = c ++ b ++ d) : a = b := by
  have hd : (c ++ a ++ d).data = (c ++ b ++ d).data := congrArg String.data h
  simp only [String.data_append, List.append_assoc] at hd
  have h1 : a.data ++ d.data = b.data ++ d.data := List.append_cancel_left hd
  have h2 : a.data = b.data := List.append_cancel_right h1
  cases a; cases b; simp_all

theorem candOrg_inj (base ext : String) {i j : Nat} (hi : 1 ≤ i) (hj : 1 ≤ j)
    (h : candOrg base ext i = candOrg base ext j) : i = j := by
  unfold candOrg at h
  have : natStr i = natStr j := by
    apply String_append_cancel (base ++ "_") ext
    simpa [String.append_assoc] using h
  exact natStr_inj hi hj this

theorem candUndo_inj (base ext : String) {i j : Nat} (hi : 1 ≤ i) (hj : 1 ≤ j)
    (h : candUndo base ext i = candUndo base ext j) : i = j := by
  unfold candUndo at h
  have : natStr i = natStr j := by
    apply String_append_cancel (base ++ "_restored_") ext
    simpa [String.append_assoc] using h
  exact natStr_inj hi hj this

theorem resolveGo_spec (taken : List String) (cand : Nat → String) :
    ∀ fuel k, (∃ j, k ≤ j ∧ j < k + fuel ∧ cand j ∉ taken) →
      ∃ j, k ≤ j ∧ j < k + fuel ∧ resolveGo taken cand fuel k = cand j ∧ cand j ∉ taken ∧
        ∀ i, k ≤ i → i < j → cand i ∈ taken := by
  intro fuel
  induction fuel with
  | zero =>
    rintro k ⟨j, hj1, hj2, _⟩
    omega
  | succ f ih =>
    rintro k ⟨j, hkj, hjf, hfree⟩
    by_cases hk : cand k ∈ taken
    · have hne : k ≠ j := by
        rintro rfl
        exact hfree hk
      obtain ⟨j', h1, h2, h3, h4, h5⟩ := ih (k + 1) ⟨j, by omega, by omega, hfree⟩
      refine ⟨j', by omega, by omega, ?_, h4, ?_⟩
      · simpa [resolveGo, hk] using h3
      · intro i hi1 hi2
        rcases Nat.eq_or_lt_of_le hi1 with h | h
        · exact h ▸ hk
        · exact h5 i h hi2
    · exact ⟨k, Nat.le_refl _, by omega, by simp [resolveGo, hk], hk,
        fun i h1 h2 => absurd (Nat.lt_of_le_of_lt h1 h2) (Nat.lt_irrefl _)⟩

theorem exists_free_cand (taken : List String) (cand : Nat → String)
    (hinj : ∀ i j, 1 ≤ i → 1 ≤ j → cand i = cand j → i = j) :
    ∃ j, 1 ≤ j ∧ j < 1 + (taken.length + 1) ∧ cand j ∉ taken := by
  by_contra hcon
  push_neg at hcon
  set L : List String := (List.range' 1 (taken.length + 1)).map cand with hL
  have hnd : L.Nodup := by
    refine List.Nodup.map_on ?_ (List.nodup_range' _ _)
    intro x hx y hy hxy
    rw [List.mem_range'] at hx hy
    obtain ⟨i, _, rfl⟩ := hx
    obtain ⟨i', _, rfl⟩ := hy
    exact hinj _ _ (by omega) (by omega) hxy
  have hsub : L ⊆ taken := by
    intro s hs
    rw [hL, List.mem_map] at hs
    obtain ⟨j, hj, rfl⟩ := hs
    rw [List.mem_range'] at hj
    obtain ⟨i, hi, rfl⟩ := hj
    exact hcon _ (by omega) (by omega)
  have hcard : L.toFinset.card = taken.length + 1 := by
    rw [List.toFinset_card_of_nodup hnd, hL, List.length_map, List.length_range']
  have hle : L.toFinset ⊆ taken.toFinset := by
    intro s hs
    rw [List.mem_toFinset] at hs ⊢
    exact hsub hs
  have := Finset.card_le_card hle
  have := taken.toFinset_card_le
  omega

theorem resolveOrg_spec (taken : List String) (name : String) :
    resolveOrg taken name ∉ taken ∧
      (name ∉ taken → resolveOrg taken name = name) ∧
      (name ∈ taken → ∃ k, 1 ≤ k ∧
        resolveOrg taken name = candOrg (splitext name).1 (splitext name).2 k ∧
        ∀ i, 1 ≤ i → i < k → candOrg (splitext name).1 (splitext name).2 i ∈ taken) := by
  by_cases h : name ∈ taken
  · have hex := exists_free_cand taken (candOrg (splitext name).1 (splitext name).2)
      (fun i j hi hj => candOrg_inj _ _ hi hj)
    obtain ⟨j, h1, h2, h3, h4, h5⟩ :=
      resolveGo_spec taken (candOrg (splitext name).1 (splitext name).2) (taken.length + 1) 1 hex
    unfold resolveOrg
    rw [if_pos h]
    exact ⟨h3 ▸ h4, fun hn => absurd h hn, fun _ => ⟨j, h1, h3, h5⟩⟩
  · unfold resolveOrg
    rw [if_neg h]
    exact ⟨h, fun _ => rfl, fun hy => absurd hy h⟩

theorem resolveUndo_spec (taken : List String) (name : String) :
    resolveUndo taken name ∉ taken ∧
      (name ∉ taken → resolveUndo taken name = name) ∧
      (name ∈ taken → ∃ k, 1 ≤ k ∧
        resolveUndo taken name = candUndo (splitext name).1 (splitext name).2 k ∧
        ∀ i, 1 ≤ i → i < k → candUndo (splitext name).1 (splitext name).2 i ∈ taken) := by
  by_cases h : name ∈ taken
  · have hex := exists_free_cand taken (candUndo (splitext name).1 (splitext name).2)
      (fun i j hi hj => candUndo_inj _ _ hi hj)
    obtain ⟨j, h1, h2, h3, h4, h5⟩ :=
      resolveGo_spec taken (candUndo (splitext name).1 (splitext name).2) (taken.length + 1) 1 hex
    unfold resolveUndo
    rw [if_pos h]
    exact ⟨h3 ▸ h4, fun hn => absurd h hn, fun _ => ⟨j, h1, h3, h5⟩⟩
  · unfold resolveUndo
    rw [if_neg h]
    exact ⟨h, fun _ => rfl, fun hy => absurd hy h⟩

/-! ## Classifier (`FILE_CATEGORIES`, `get_file_category`) -/

def FILE_CATEGORIES : List (String × List String) :=
  [("Images", [".jpg", ".jpeg", ".png", ".gif", ".bmp", ".svg", ".ico", ".webp"]),
   ("Documents", [".pdf", ".doc", ".docx", ".txt", ".xls", ".xlsx", ".ppt", ".pptx", ".odt", ".csv"]),
   ("Videos", [".mp4", ".mkv", ".flv", ".avi", ".mov", ".wmv", ".webm"]),
   ("Audio", [".mp3", ".wav", ".aac", ".flac", ".m4a", ".wma"]),
   ("Archives", [".zip", ".rar", ".tar", ".gz", ".7z", ".bz2"]),
   ("Programs", [".py", ".c", ".cpp", ".java", ".html", ".css", ".js", ".php", ".json", ".xml"]),
   ("Executables", [".exe", ".msi", ".apk", ".app", ".bat", ".sh"]),
   ("Others", [])]

/-- The category names, in table order. -/
def catKeys : List String := FILE_CATEGORIES.map (fun p => p.1)

/-- `get_file_category`: lower the extension, return the first category
whose extension list contains it, else `"Others"`. -/
def get_file_category (file_ext : String) : String :=
  match FILE_CATEGORIES.find? (fun p => strLower file_ext ∈ p.2) with
  | some p => p.1
  | none => "Others"

/-- Classification of a file name, as done by the engines:
`get_file_category(os.path.splitext(filename)[1].lower())`. -/
def classifyName (filename : String) : String := get_file_category (extOf filename)

/-! ## Filesystem model

Two levels: the root folder's entries (`Ent1`) and, inside each of its
subfolders, named entries (`Ent2`) of which only the name and the
file/directory distinction are relevant. -/

inductive Ent2 where
  | file (name : String)
  | dir (name : String)
deriving DecidableEq, Repr

def Ent2.name : Ent2 → String
  | .file n => n
  | .dir n => n

def Ent2.isFile : Ent2 → Bool
  | .file _ => true
  | .dir _ => false

inductive Ent1 where
  | file (name : String)
  | dir (name : String) (contents : List Ent2)
deriving DecidableEq, Repr

def Ent1.name : Ent1 → String
  | .file n => n
  | .dir n _ => n

def Ent1.isFile : Ent1 → Bool
  | .file _ => true
  | .dir _ _ => false

/-- The root path handed to the engines: missing, a regular file, or a
directory with its entries (in `os.listdir` order). -/
inductive Root where
  | missing
  | file
  | dir (entries : List Ent1)
deriving DecidableEq, Repr

/-- First entry of the root folder with the given name (`os` path lookup). -/
def lookup1 (fs : List Ent1) (n : String) : Option Ent1 :=
  fs.find? (fun e => e.name = n)

/-- `os.path.exists(root/n)`. -/
def existsAt (fs : List Ent1) (n : String) : Bool := (lookup1 fs n).isSome

/-- `os.path.isdir(root/n)`. -/
def isDirAt (fs : List Ent1) (n : String) : Bool :=
  match lookup1 fs n with
  | some (.dir _ _) => true
  | _ => false

/-- Contents of the subfolder `root/n` (empty if absent or a file). -/
def dirEntries (fs : List Ent1) (n : String) : List Ent2 :=
  match lookup1 fs n with
  | some (.dir _ es) => es
  | _ => []

/-- `os.path.exists(root/cat/x)`: `x` names an entry of subfolder `cat`. -/
def catHas (fs : List Ent1) (cat x : String) : Bool :=
  match lookup1 fs cat with
  | some (.dir _ es) => es.any (fun e => e.name = x)
  | _ => false

/-- Names of the entries of subfolder `cat` (the occupied destination
names that `organize_files`' collision loop checks against). -/
def catNames (fs : List Ent1) (cat : String) : List String :=
  (dirEntries fs cat).map Ent2.name

/-- Names of all root entries (the occupied destination names that
`undo_organize_files`' collision loop checks against). -/
def rootNames (fs : List Ent1) : List String := fs.map Ent1.name

/-- Names of the regular files directly under the root, in listing
order: `[f for f in os.listdir(folder) if os.path.isfile(join(folder, f))]`. -/
def rootFiles (fs : List Ent1) : List String :=
  fs.filterMap (fun e => match e with | .file n => some n | .dir _ _ => none)

/-- Names of the file entries of subfolder `cat`, in listing order. -/
def catFiles (fs : List Ent1) (cat : String) : List String :=
  (dirEntries fs cat).filterMap (fun e => match e with | .file n => some n | .dir _ => none)

/-- Remove the first root file entry with the given name. -/
def removeRootFile : List Ent1 → String → List Ent1
  | [], _ => []
  | .file m :: rest, n => if m = n then rest else .file m :: removeRootFile rest n
  | e :: rest, n => e :: removeRootFile rest n

/-- Append a file entry to the first subfolder named `cat`. -/
def addToCat : List Ent1 → String → String → List Ent1
  | [], _, _ => []
  | .dir c es :: rest, cat, dn =>
    if c = cat then .dir c (es ++ [.file dn]) :: rest else .dir c es :: addToCat rest cat dn
  | e :: rest, cat, dn => e :: addToCat rest cat dn

/-- Remove the first file entry with the given name from a subfolder's
entry list. -/
def removeEnt2 : List Ent2 → String → List Ent2
  | [], _ => []
  | .file m :: rest, n => if m = n then rest else .file m :: removeEnt2 rest n
  | e :: rest, n => e :: removeEnt2 rest n

/-- Remove the first file entry named `n` from the first subfolder named `cat`. -/
def removeFromCat : List Ent1 → String → String → List Ent1
  | [], _, _ => []
  | .dir c es :: rest, cat, n =>
    if c = cat then .dir c (removeEnt2 es n) :: rest else .dir c es :: removeFromCat rest cat n
  | e :: rest, cat, n => e :: removeFromCat rest cat n

/-- `shutil.move(root/src, root/cat/dst)`: fails (`none`) unless `src`
is a root file, `cat` a subfolder, and `dst` free in it.  (The code
checks freeness before calling, so the overwrite case is unreachable.) -/
def moveIntoCat (fs : List Ent1) (src cat dst : String) : Option (List Ent1) :=
  match lookup1 fs src with
  | some (.file _) =>
    if isDirAt fs cat ∧ ¬ catHas fs cat dst then
      some (addToCat (removeRootFile fs src) cat dst)
    else none
  | _ => none

/-- `shutil.move(root/cat/src, root/dst)`: fails (`none`) unless `src`
is a file entry of subfolder `cat` and `dst` is free at the root. -/
def moveToRoot (fs : List Ent1) (cat src dst : String) : Option (List Ent1) :=
  if (src ∈ catFiles fs cat) ∧ ¬ existsAt fs dst then
    some (removeFromCat fs cat src ++ [.file dst])
  else none

/-- Remove the first root entry with the given name (`os.rmdir`). -/
def removeRootEntry : List Ent1 → String → List Ent1
  | [], _ => []
  | e :: rest, n => if e.name = n then rest else e :: removeRootEntry rest n

/-! ## Observable events

Invocations of the progress callback and move attempts, in the order
they happen. -/

inductive Event where
  | progress (cur total : Nat) (name : String)
  | attempt (name : String) (ok : Bool)
deriving DecidableEq, Repr

/-! ## Organizer engine (`organize_files`) -/

structure OrgStats where
  total_files : Nat
  moved_files : Nat
  skipped_files : Nat
  categories : List (String × Nat)
  errors : List String
deriving DecidableEq, Repr

/-- `stats["categories"][category] += 1` (the key is present whenever
the code reaches this line). -/
def bumpCat : List (String × Nat) → String → List (String × Nat)
  | [], _ => []
  | (c, k) :: rest, cat => if c = cat then (c, k + 1) :: rest else (c, k) :: bumpCat rest cat

/-- The categories needed by at least one candidate file (the code's
`needed_categories` set).  CPython iterates a set in a hash-dependent,
arbitrary order; this definition fixes one admissible order (table
order) so the engine stays executable.  Only order-independent facts
about it — membership, uniqueness, sums — are properties of the
program, and only those appear in claim statements. -/
def neededCats (files : List String) : List String :=
  catKeys.filter (fun c => files.any (fun f => classifyName f = c))

/-- First pass of `organize_files` (lines 65–70): for each needed
category, `os.makedirs` unless the path exists, then a zero counter.
`os.makedirs` is not inside any `try`, so a creation failure (oracle
`mk`) escapes: `none`. -/
def createCats (mk : String → Bool) : List String → List Ent1 → List (String × Nat) →
    Option (List Ent1 × List (String × Nat))
  | [], fs, cats => some (fs, cats)
  | c :: rest, fs, cats =>
    if existsAt fs c then createCats mk rest fs (cats ++ [(c, 0)])
    else if mk c then none
    else createCats mk rest (fs ++ [.dir c []]) (cats ++ [(c, 0)])

structure OrgState where
  fs : List Ent1
  moved : Nat
  skipped : Nat
  cats : List (String × Nat)
  errors : List String
  trace : List Event
deriving Repr

/-- One iteration of the per-file loop (lines 73–105): invoke the
progress callback, classify, resolve the destination name, attempt the
move (`mv idx` injects an environmental failure); on success bump the
counters, on failure record the error and count the file as skipped. -/
def orgStep (mv : Nat → Bool) (total idx : Nat) (name : String) (st : OrgState) : OrgState :=
  let st1 := { st with trace := st.trace ++ [Event.progress (idx + 1) total name] }
  let cat := classifyName name
  let dst := resolveOrg (catNames st1.fs cat) name
  match (if mv idx then none else moveIntoCat st1.fs name cat dst) with
  | some fs' =>
    { st1 with
      fs := fs'
      moved := st1.moved + 1
      cats := bumpCat st1.cats cat
      trace := st1.trace ++ [Event.attempt name true] }
  | none =>
    { st1 with
      skipped := st1.skipped + 1
      errors := st1.errors ++ ["Error moving " ++ name]
      trace := st1.trace ++ [Event.attempt name false] }

def orgLoop (mv : Nat → Bool) (total : Nat) : Nat → List String → OrgState → OrgState
  | _, [], st => st
  | idx, n :: rest, st => orgLoop mv total (idx + 1) rest (orgStep mv total idx n st)

/-- Return value of `organize_files`: the `{"error": ...}` dictionary
or the statistics dictionary. -/
inductive OrgRet where
  | notFound
  | stats (s : OrgStats)
deriving DecidableEq, Repr

/-- `organize_files(source_folder, progress_callback)`.  Returns the
result, the final filesystem and the event trace; `Except.error ()` is
an exception escaping the function. -/
def organize (root : Root) (mk : String → Bool) (mv : Nat → Bool) :
    Except Unit (OrgRet × Root × List Event) :=
  match root with
  | .missing => .ok (.notFound, .missing, [])
  | .file => .error ()
  | .dir fs =>
    let files := rootFiles fs
    match createCats mk (neededCats files) fs [] with
    | none => .error ()
    | some (fs1, cats0) =>
      let st := orgLoop mv files.length 0 files ⟨fs1, 0, 0, cats0, [], []⟩
      .ok (.stats ⟨files.length, st.moved, st.skipped, st.cats, st.errors⟩, .dir st.fs, st.trace)

/-! ## Restorer engine (`undo_organize_files`) -/

structure UndoStats where
  total_files : Nat
  moved_files : Nat
  skipped_files : Nat
  errors : List String
deriving DecidableEq, Repr

inductive UndoRet where
  | notFound
  | stats (s : UndoStats)
deriving DecidableEq, Repr

structure UndoState where
  fs : List Ent1
  moved : Nat
  skipped : Nat
  errors : List String
  trace : List Event
deriving Repr

/-- The undo batch (lines 126–134): the files of every existing
category folder, in table order, paired with their folder. -/
def undoBatch (fs : List Ent1) : List (String × String) :=
  (catKeys.filter (fun c => isDirAt fs c)).flatMap
    (fun c => (catFiles fs c).map (fun n => (c, n)))

/-- One iteration of undo's per-file loop (lines 139–160). -/
def undoStep (mv : Nat → Bool) (total idx : Nat) (p : String × String) (st : UndoState) :
    UndoState :=
  let st1 := { st with trace := st.trace ++ [Event.progress (idx + 1) total p.2] }
  let dst := resolveUndo (rootNames st1.fs) p.2
  match (if mv idx then none else moveToRoot st1.fs p.1 p.2 dst) with
  | some fs' =>
    { st1 with fs := fs', moved := st1.moved + 1, trace := st1.trace ++ [Event.attempt p.2 true] }
  | none =>
    { st1 with
      skipped := st1.skipped + 1
      errors := st1.errors ++ ["Error moving " ++ p.2]
      trace := st1.trace ++ [Event.attempt p.2 false] }

def undoLoop (mv : Nat → Bool) (total : Nat) : Nat → List (String × String) → UndoState →
    UndoState
  | _, [], st => st
  | idx, p :: rest, st => undoLoop mv total (idx + 1) rest (undoStep mv total idx p st)

/-- Cleanup pass (lines 162–172): remove each category folder that
exists and is empty. -/
def cleanup : List String → List Ent1 → List Ent1
  | [], fs => fs
  | c :: rest, fs =>
    if isDirAt fs c ∧ dirEntries fs c = [] then cleanup rest (removeRootEntry fs c)
    else cleanup rest fs

/-- `undo_organize_files(source_folder, progress_callback)`.  On a root
that is a regular file the existence check passes, every
`os.path.isdir(root/cat)` is false, the batch is empty and the cleanup
touches nothing, so the function returns a plain zero result. -/
def undo (root : Root) (mv : Nat → Bool) : Except Unit (UndoRet × Root × List Event) :=
  match root with
  | .missing => .ok (.notFound, .missing, [])
  | .file => .ok (.stats ⟨0, 0, 0, []⟩, .file, [])
  | .dir fs =>
    let batch := undoBatch fs
    let st := undoLoop mv batch.length 0 batch ⟨fs, 0, 0, [], []⟩
    .ok (.stats ⟨batch.length, st.moved, st.skipped, st.errors⟩,
      .dir (cleanup catKeys st.fs), st.trace)

/-! ## Preview (`preview_organization`) -/

/-- `preview[category].append(filename)`, creating the key on first use. -/
def addPreview : List (String × List String) → String → String → List (String × List String)
  | [], cat, n => [(cat, [n])]
  | (c, ns) :: rest, cat, n =>
    if c = cat then (c, ns ++ [n]) :: rest else (c, ns) :: addPreview rest cat n

/-- `preview_organization(source_folder)`: `none` models the `None`
return; a root that is a regular file makes `os.listdir` raise. -/
def preview (root : Root) : Except Unit (Option (List (String × List String))) :=
  match root with
  | .missing => .ok none
  | .file => .error ()
  | .dir fs =>
    .ok (some ((rootFiles fs).foldl (fun acc n => addPreview acc (classifyName n) n) []))

/-! ## Basic facts about the filesystem primitives -/

theorem classify_mem_catKeys (e : String) : get_file_category e ∈ catKeys := by
  unfold get_file_category catKeys
  split
  · next p h => exact List.mem_map_of_mem _ (List.mem_of_find?_eq_some h)
  · decide

theorem classifyName_mem_catKeys (n : String) : classifyName n ∈ catKeys :=
  classify_mem_catKeys _

theorem lookup1_nil (m : String) : lookup1 [] m = none := rfl

theorem lookup1_cons (e : Ent1) (rest : List Ent1) (m : String) :
    lookup1 (e :: rest) m = if e.name = m then some e else lookup1 rest m := by
  unfold lookup1
  rw [List.find?_cons]
  by_cases h : e.name = m
  · simp [h]
  · simp [h]

theorem catHas_iff (fs : List Ent1) (c x : String) :
    catHas fs c x = true ↔ x ∈ catNames fs c := by
  unfold catHas catNames dirEntries
  cases h : lookup1 fs c with
  | none => simp
  | some e =>
    cases e with
    | file n => simp
    | dir n es =>
      simp [List.any_eq_true, List.mem_map, decide_eq_true_eq]

theorem existsAt_iff (fs : List Ent1) (n : String) :
    existsAt fs n = true ↔ n ∈ rootNames fs := by
  unfold existsAt lookup1 rootNames
  rw [List.find?_isSome]
  constructor
  · rintro ⟨e, he, hp⟩
    simp only [decide_eq_true_eq] at hp
    exact hp ▸ List.mem_map_of_mem _ he
  · rintro hm
    obtain ⟨e, he, rfl⟩ := List.mem_map.mp hm
    exact ⟨e, he, by simp⟩

theorem mem_catFiles_of_dirEntries {fs : List Ent1} {c n : String}
    (h : Ent2.file n ∈ dirEntries fs c) : n ∈ catFiles fs c := by
  unfold catFiles
  rw [List.mem_filterMap]
  exact ⟨.file n, h, rfl⟩

/-! ### `removeRootFile` -/

theorem removeRootFile_lookup (fs : List Ent1) (n m : String) (hm : m ≠ n) :
    lookup1 (removeRootFile fs n) m = lookup1 fs m := by
  induction fs with
  | nil => rfl
  | cons e rest ih =>
    cases e with
    | file k =>
      by_cases hk : k = n
      · subst hk
        rw [show removeRootFile (Ent1.file k :: rest) k = rest by simp [removeRootFile]]
        rw [lookup1_cons, if_neg (by simp [Ent1.name]; exact fun h => hm h.symm)]
      · rw [show removeRootFile (Ent1.file k :: rest) n = Ent1.file k :: removeRootFile rest n
            by simp [removeRootFile, hk]]
        rw [lookup1_cons, lookup1_cons, ih]
    | dir k es =>
      rw [show removeRootFile (Ent1.dir k es :: rest) n = Ent1.dir k es :: removeRootFile rest n
          from rfl]
      rw [lookup1_cons, lookup1_cons, ih]

theorem removeRootFile_rootFiles (fs : List Ent1) (n : String) :
    rootFiles (removeRootFile fs n) = (rootFiles fs).erase n := by
  induction fs with
  | nil => rfl
  | cons e rest ih =>
    cases e with
    | file k =>
      by_cases hk : k = n
      · subst hk
        rw [show removeRootFile (Ent1.file k :: rest) k = rest by simp [removeRootFile]]
        simp only [rootFiles, List.filterMap_cons]
        rw [List.erase_cons_head]
      · rw [show removeRootFile (Ent1.file k :: rest) n = Ent1.file k :: removeRootFile rest n
            by simp [removeRootFile, hk]]
        simp only [rootFiles, List.filterMap_cons]
        rw [List.erase_cons_tail (by simp [hk])]
        exact congrArg (k :: ·) ih
    | dir k es =>
      simpa only [removeRootFile, rootFiles, List.filterMap_cons] using ih

theorem removeRootFile_sublist (fs : List Ent1) (n : String) :
    List.Sublist (removeRootFile fs n) fs := by
  induction fs with
  | nil => exact List.Sublist.refl _
  | cons e rest ih =>
    cases e with
    | file k =>
      by_cases hk : k = n
      · subst hk
        rw [show removeRootFile (Ent1.file k :: rest) k = rest by simp [removeRootFile]]
        exact List.sublist_cons_self _ _
      · rw [show removeRootFile (Ent1.file k :: rest) n = Ent1.file k :: removeRootFile rest n
            by simp [removeRootFile, hk]]
        exact List.Sublist.cons₂ _ ih
    | dir k es =>
      exact List.Sublist.cons₂ _ ih

/-! ### `addToCat` -/

theorem addToCat_cons_file (k : String) (rest : List Ent1) (cat dn : String) :
    addToCat (Ent1.file k :: rest) cat dn = Ent1.file k :: addToCat rest cat dn := rfl

theorem addToCat_cons_dir (k : String) (es : List Ent2) (rest : List Ent1) (cat dn : String) :
    addToCat (Ent1.dir k es :: rest) cat dn =
      if k = cat then Ent1.dir k (es ++ [Ent2.file dn]) :: rest
      else Ent1.dir k es :: addToCat rest cat dn := by
  simp [addToCat]

theorem addToCat_lookup_ne (fs : List Ent1) (cat dn m : String) (hm : m ≠ cat) :
    lookup1 (addToCat fs cat dn) m = lookup1 fs m := by
  induction fs with
  | nil => rfl
  | cons e rest ih =>
    cases e with
    | file k =>
      rw [addToCat_cons_file, lookup1_cons, lookup1_cons, ih]
    | dir k es =>
      rw [addToCat_cons_dir]
      by_cases hk : k = cat
      · subst hk
        rw [if_pos rfl, lookup1_cons, lookup1_cons]
        have : ¬ (Ent1.dir k (es ++ [Ent2.file dn])).name = m := by
          simp [Ent1.name]
          exact fun h => hm h.symm
        rw [if_neg this, if_neg (by simp [Ent1.name]; exact fun h => hm h.symm)]
      · rw [if_neg hk, lookup1_cons, lookup1_cons, ih]

theorem addToCat_rootFiles (fs : List Ent1) (cat dn : String) :
    rootFiles (addToCat fs cat dn) = rootFiles fs := by
  induction fs with
  | nil => rfl
  | cons e rest ih =>
    cases e with
    | file k =>
      rw [addToCat_cons_file]
      simp only [rootFiles, List.filterMap_cons]
      exact congrArg (k :: ·) ih
    | dir k es =>
      rw [addToCat_cons_dir]
      by_cases hk : k = cat
      · rw [if_pos hk]
        simp [rootFiles]
      · rw [if_neg hk]
        simpa only [rootFiles, List.filterMap_cons] using ih

theorem addToCat_rootNames (fs : List Ent1) (cat dn : String) :
    rootNames (addToCat fs cat dn) = rootNames fs := by
  induction fs with
  | nil => rfl
  | cons e rest ih =>
    cases e with
    | file k =>
      rw [addToCat_cons_file]
      simp only [rootNames, List.map_cons]
      exact congrArg (_ :: ·) ih
    | dir k es =>
      rw [addToCat_cons_dir]
      by_cases hk : k = cat
      · rw [if_pos hk]
        simp [rootNames, Ent1.name]
      · rw [if_neg hk]
        simp only [rootNames, List.map_cons]
        exact congrArg (_ :: ·) ih

theorem addToCat_isDirAt (fs : List Ent1) (cat dn d : String) :
    isDirAt (addToCat fs cat dn) d = isDirAt fs d := by
  by_cases hd : d = cat
  · subst hd
    induction fs with
    | nil => rfl
    | cons e rest ih =>
      cases e with
      | file k =>
        rw [addToCat_cons_file]
        unfold isDirAt
        rw [lookup1_cons, lookup1_cons]
        by_cases hk : (Ent1.file k).name = d
        · rw [if_pos hk, if_pos hk]
        · rw [if_neg hk, if_neg hk]
          exact ih
      | dir k es =>
        rw [addToCat_cons_dir]
        by_cases hk : k = d
        · subst hk
          rw [if_pos rfl]
          unfold isDirAt
          rw [lookup1_cons, lookup1_cons, if_pos (by simp [Ent1.name]),
            if_pos (by simp [Ent1.name])]
        · rw [if_neg hk]
          unfold isDirAt
          rw [lookup1_cons, lookup1_cons]
          have : ¬ (Ent1.dir k es).name = d := by simp [Ent1.name, hk]
          rw [if_neg this, if_neg this]
          exact ih
  · unfold isDirAt
    rw [addToCat_lookup_ne fs cat dn d hd]

theorem removeRootFile_isDirAt_ne (fs : List Ent1) (n d : String) (hd : d ≠ n) :
    isDirAt (removeRootFile fs n) d = isDirAt fs d := by
  unfold isDirAt
  rw [removeRootFile_lookup fs n d hd]

theorem removeRootFile_dirEntries_ne (fs : List Ent1) (n c : String) (hc : c ≠ n) :
    dirEntries (removeRootFile fs n) c = dirEntries fs c := by
  unfold dirEntries
  rw [removeRootFile_lookup fs n c hc]

theorem addToCat_dirEntries_self (fs : List Ent1) (cat dn : String)
    (h : isDirAt fs cat = true) :
    dirEntries (addToCat fs cat dn) cat = dirEntries fs cat ++ [Ent2.file dn] := by
  induction fs with
  | nil => simp [isDirAt, lookup1] at h
  | cons e rest ih =>
    cases e with
    | file k =>
      by_cases hk : (Ent1.file k).name = cat
      · exfalso
        unfold isDirAt at h
        rw [lookup1_cons, if_pos hk] at h
        simp at h
      · rw [addToCat_cons_file]
        unfold dirEntries
        rw [lookup1_cons, lookup1_cons, if_neg hk, if_neg hk]
        have h' : isDirAt rest cat = true := by
          unfold isDirAt at h
          rwa [lookup1_cons, if_neg hk] at h
        exact ih h'
    | dir k es =>
      rw [addToCat_cons_dir]
      by_cases hk : k = cat
      · subst hk
        rw [if_pos rfl]
        unfold dirEntries
        rw [lookup1_cons, lookup1_cons, if_pos (by simp [Ent1.name]),
          if_pos (by simp [Ent1.name])]
      · rw [if_neg hk]
        unfold dirEntries
        have hk' : ¬ (Ent1.dir k es).name = cat := by simp [Ent1.name, hk]
        rw [lookup1_cons, lookup1_cons, if_neg hk', if_neg hk']
        have h' : isDirAt rest cat = true := by
          unfold isDirAt at h
          rwa [lookup1_cons, if_neg hk'] at h
        exact ih h'

theorem addToCat_dirEntries_ne (fs : List Ent1) (cat dn c : String) (hc : c ≠ cat) :
    dirEntries (addToCat fs cat dn) c = dirEntries fs c := by
  unfold dirEntries
  rw [addToCat_lookup_ne fs cat dn c hc]

/-! ### `removeFromCat`, appends, `removeRootEntry` -/

/-- Names of the subdirectory entries of a subfolder's entry list. -/
def dirsOf (es : List Ent2) : List String :=
  es.filterMap (fun e => match e with | .dir n => some n | .file _ => none)

/-- Names of the file entries of a subfolder's entry list. -/
def filesOf (es : List Ent2) : List String :=
  es.filterMap (fun e => match e with | .file n => some n | .dir _ => none)

theorem catFiles_eq_filesOf (fs : List Ent1) (c : String) :
    catFiles fs c = filesOf (dirEntries fs c) := rfl

theorem ent2_nil_iff (es : List Ent2) : es = [] ↔ filesOf es = [] ∧ dirsOf es = [] := by
  cases es with
  | nil => simp [filesOf, dirsOf]
  | cons e rest =>
    cases e with
    | file n => simp [filesOf, dirsOf]
    | dir n => simp [filesOf, dirsOf]

theorem removeEnt2_dirsOf (es : List Ent2) (n : String) :
    dirsOf (removeEnt2 es n) = dirsOf es := by
  induction es with
  | nil => rfl
  | cons e rest ih =>
    cases e with
    | file m =>
      by_cases hm : m = n
      · subst hm
        rw [show removeEnt2 (Ent2.file m :: rest) m = rest by simp [removeEnt2]]
        simp [dirsOf]
      · rw [show removeEnt2 (Ent2.file m :: rest) n = Ent2.file m :: removeEnt2 rest n
            by simp [removeEnt2, hm]]
        simpa [dirsOf] using ih
    | dir m =>
      rw [show removeEnt2 (Ent2.dir m :: rest) n = Ent2.dir m :: removeEnt2 rest n from rfl]
      simpa [dirsOf] using ih

theorem removeEnt2_filesOf_head (es : List Ent2) (n : String) (rest : List String)
    (h : filesOf es = n :: rest) : filesOf (removeEnt2 es n) = rest := by
  induction es with
  | nil => simp [filesOf] at h
  | cons e tl ih =>
    cases e with
    | file m =>
      have hm : m = n := by
        simp only [filesOf, List.filterMap_cons] at h
        exact (List.cons.injEq _ _ _ _ ▸ h).1
      subst hm
      rw [show removeEnt2 (Ent2.file m :: tl) m = tl by simp [removeEnt2]]
      simp only [filesOf, List.filterMap_cons] at h
      exact (List.cons.injEq _ _ _ _ ▸ h).2
    | dir m =>
      rw [show removeEnt2 (Ent2.dir m :: tl) n = Ent2.dir m :: removeEnt2 tl n from rfl]
      simp only [filesOf, List.filterMap_cons] at h ⊢
      exact ih h

theorem removeFromCat_cons_file (k : String) (rest : List Ent1) (cat n : String) :
    removeFromCat (Ent1.file k :: rest) cat n = Ent1.file k :: removeFromCat rest cat n := rfl

theorem removeFromCat_cons_dir (k : String) (es : List Ent2) (rest : List Ent1) (cat n : String) :
    removeFromCat (Ent1.dir k es :: rest) cat n =
      if k = cat then Ent1.dir k (removeEnt2 es n) :: rest
      else Ent1.dir k es :: removeFromCat rest cat n := by
  simp [removeFromCat]

theorem removeFromCat_lookup_ne (fs : List Ent1) (cat n m : String) (hm : m ≠ cat) :
    lookup1 (removeFromCat fs cat n) m = lookup1 fs m := by
  induction fs with
  | nil => rfl
  | cons e rest ih =>
    cases e with
    | file k =>
      rw [removeFromCat_cons_file, lookup1_cons, lookup1_cons, ih]
    | dir k es =>
      rw [removeFromCat_cons_dir]
      by_cases hk : k = cat
      · subst hk
        rw [if_pos rfl, lookup1_cons, lookup1_cons]
        have hne : ¬ (Ent1.dir k (removeEnt2 es n)).name = m := by
          simp [Ent1.name]
          exact fun h => hm h.symm
        rw [if_neg hne, if_neg (by simp [Ent1.name]; exact fun h => hm h.symm)]
      · rw [if_neg hk, lookup1_cons, lookup1_cons, ih]

theorem removeFromCat_rootFiles (fs : List Ent1) (cat n : String) :
    rootFiles (removeFromCat fs cat n) = rootFiles fs := by
  induction fs with
  | nil => rfl
  | cons e rest ih =>
    cases e with
    | file k =>
      rw [removeFromCat_cons_file]
      simp only [rootFiles, List.filterMap_cons]
      exact congrArg (k :: ·) ih
    | dir k es =>
      rw [removeFromCat_cons_dir]
      by_cases hk : k = cat
      · rw [if_pos hk]
        simp [rootFiles]
      · rw [if_neg hk]
        simpa only [rootFiles, List.filterMap_cons] using ih

theorem removeFromCat_rootNames (fs : List Ent1) (cat n : String) :
    rootNames (removeFromCat fs cat n) = rootNames fs := by
  induction fs with
  | nil => rfl
  | cons e rest ih =>
    cases e with
    | file k =>
      rw [removeFromCat_cons_file]
      simp only [rootNames, List.map_cons]
      exact congrArg (_ :: ·) ih
    | dir k es =>
      rw [removeFromCat_cons_dir]
      by_cases hk : k = cat
      · rw [if_pos hk]
        simp [rootNames, Ent1.name]
      · rw [if_neg hk]
        simp only [rootNames, List.map_cons]
        exact congrArg (_ :: ·) ih

theorem removeFromCat_isDirAt (fs : List Ent1) (cat n d : String) :
    isDirAt (removeFromCat fs cat n) d = isDirAt fs d := by
  by_cases hd : d = cat
  · subst hd
    induction fs with
    | nil => rfl
    | cons e rest ih =>
      cases e with
      | file k =>
        rw [removeFromCat_cons_file]
        unfold isDirAt
        rw [lookup1_cons, lookup1_cons]
        by_cases hk : (Ent1.file k).name = d
        · rw [if_pos hk, if_pos hk]
        · rw [if_neg hk, if_neg hk]
          exact ih
      | dir k es =>
        rw [removeFromCat_cons_dir]
        by_cases hk : k = d
        · subst hk
          rw [if_pos rfl]
          unfold isDirAt
          rw [lookup1_cons, lookup1_cons, if_pos (by simp [Ent1.name]),
            if_pos (by simp [Ent1.name])]
        · rw [if_neg hk]
          unfold isDirAt
          rw [lookup1_cons, lookup1_cons]
          have : ¬ (Ent1.dir k es).name = d := by simp [Ent1.name, hk]
          rw [if_neg this, if_neg this]
          exact ih
  · unfold isDirAt
    rw [removeFromCat_lookup_ne fs cat n d hd]

theorem removeFromCat_dirEntries_self (fs : List Ent1) (cat n : String)
    (h : isDirAt fs cat = true) :
    dirEntries (removeFromCat fs cat n) cat = removeEnt2 (dirEntries fs cat) n := by
  induction fs with
  | nil => simp [isDirAt, lookup1] at h
  | cons e rest ih =>
    cases e with
    | file k =>
      by_cases hk : (Ent1.file k).name = cat
      · exfalso
        unfold isDirAt at h
        rw [lookup1_cons, if_pos hk] at h
        simp at h
      · rw [removeFromCat_cons_file]
        unfold dirEntries
        rw [lookup1_cons, lookup1_cons, if_neg hk, if_neg hk]
        have h' : isDirAt rest cat = true := by
          unfold isDirAt at h
          rwa [lookup1_cons, if_neg hk] at h
        exact ih h'
    | dir k es =>
      rw [removeFromCat_cons_dir]
      by_cases hk : k = cat
      · subst hk
        rw [if_pos rfl]
        unfold dirEntries
        rw [lookup1_cons, lookup1_cons, if_pos (by simp [Ent1.name]),
          if_pos (by simp [Ent1.name])]
      · rw [if_neg hk]
        unfold dirEntries
        have hk' : ¬ (Ent1.dir k es).name = cat := by simp [Ent1.name, hk]
        rw [lookup1_cons, lookup1_cons, if_neg hk', if_neg hk']
        have h' : isDirAt rest cat = true := by
          unfold isDirAt at h
          rwa [lookup1_cons, if_neg hk'] at h
        exact ih h'

theorem removeFromCat_dirEntries_ne (fs : List Ent1) (cat n c : String) (hc : c ≠ cat) :
    dirEntries (removeFromCat fs cat n) c = dirEntries fs c := by
  unfold dirEntries
  rw [removeFromCat_lookup_ne fs cat n c hc]

theorem removeFromCat_mem_file {fs : List Ent1} {m : String} (cat n : String)
    (h : Ent1.file m ∈ fs) : Ent1.file m ∈ removeFromCat fs cat n := by
  induction fs with
  | nil => simp at h
  | cons e rest ih =>
    cases e with
    | file k =>
      rw [removeFromCat_cons_file]
      rcases List.mem_cons.mp h with h | h
      · exact List.mem_cons.mpr (Or.inl h)
      · exact List.mem_cons.mpr (Or.inr (ih h))
    | dir k es =>
      rw [removeFromCat_cons_dir]
      rcases List.mem_cons.mp h with h | h
      · exact absurd h (by simp)
      · by_cases hk : k = cat
        · rw [if_pos hk]
          exact List.mem_cons.mpr (Or.inr h)
        · rw [if_neg hk]
          exact List.mem_cons.mpr (Or.inr (ih h))

theorem lookup1_append (fs gs : List Ent1) (m : String) :
    lookup1 (fs ++ gs) m = (lookup1 fs m).or (lookup1 gs m) := by
  unfold lookup1
  exact List.find?_append

theorem rootFiles_append (fs gs : List Ent1) :
    rootFiles (fs ++ gs) = rootFiles fs ++ rootFiles gs := by
  unfold rootFiles
  exact List.filterMap_append _ _ _

theorem rootNames_append (fs gs : List Ent1) :
    rootNames (fs ++ gs) = rootNames fs ++ rootNames gs := by
  unfold rootNames
  exact List.map_append _ _ _

theorem isDirAt_append_file (fs : List Ent1) (n d : String) :
    isDirAt (fs ++ [Ent1.file n]) d = isDirAt fs d := by
  unfold isDirAt
  rw [lookup1_append]
  cases h : lookup1 fs d with
  | some e => rfl
  | none =>
    simp only [Option.none_or]
    rw [lookup1_cons]
    by_cases hd : (Ent1.file n).name = d
    · rw [if_pos hd]
    · rw [if_neg hd]
      rfl

theorem dirEntries_append_file (fs : List Ent1) (n c : String) :
    dirEntries (fs ++ [Ent1.file n]) c = dirEntries fs c := by
  unfold dirEntries
  rw [lookup1_append]
  cases h : lookup1 fs c with
  | some e => rfl
  | none =>
    simp only [Option.none_or]
    rw [lookup1_cons]
    by_cases hd : (Ent1.file n).name = c
    · rw [if_pos hd]
    · rw [if_neg hd]
      rfl

theorem removeRootEntry_sublist (fs : List Ent1) (n : String) :
    List.Sublist (removeRootEntry fs n) fs := by
  induction fs with
  | nil => exact List.Sublist.refl _
  | cons e rest ih =>
    by_cases hk : e.name = n
    · rw [show removeRootEntry (e :: rest) n = rest by simp [removeRootEntry, hk]]
      exact List.sublist_cons_self _ _
    · rw [show removeRootEntry (e :: rest) n = e :: removeRootEntry rest n
          by simp [removeRootEntry, hk]]
      exact List.Sublist.cons₂ _ ih

/-! ### Success characterisations of the two moves -/

theorem moveIntoCat_eq (fs : List Ent1) (src cat dst : String)
    (h1 : lookup1 fs src = some (.file src))
    (h2 : isDirAt fs cat = true) (h3 : catHas fs cat dst = false) :
    moveIntoCat fs src cat dst = some (addToCat (removeRootFile fs src) cat dst) := by
  unfold moveIntoCat
  rw [h1]
  rw [if_pos ⟨h2, by simp [h3]⟩]

theorem moveToRoot_eq (fs : List Ent1) (cat src dst : String)
    (h1 : src ∈ catFiles fs cat) (h2 : existsAt fs dst = false) :
    moveToRoot fs cat src dst = some (removeFromCat fs cat src ++ [Ent1.file dst]) := by
  unfold moveToRoot
  rw [if_pos ⟨h1, by simp [h2]⟩]

/-! ## Accounting lemmas for the organize loop -/

/-- Sum of the per-category counters. -/
def catSum (l : List (String × Nat)) : Nat := (l.map (fun p => p.2)).sum

theorem bumpCat_keys (l : List (String × Nat)) (c : String) :
    (bumpCat l c).map (fun p => p.1) = l.map (fun p => p.1) := by
  induction l with
  | nil => rfl
  | cons p rest ih =>
    obtain ⟨k, v⟩ := p
    by_cases hk : k = c
    · simp [bumpCat, hk]
    · simp only [bumpCat, if_neg hk, List.map_cons]
      exact congrArg (_ :: ·) ih

theorem bumpCat_catSum (l : List (String × Nat)) (c : String)
    (h : c ∈ l.map (fun p => p.1)) : catSum (bumpCat l c) = catSum l + 1 := by
  induction l with
  | nil => simp at h
  | cons p rest ih =>
    obtain ⟨k, v⟩ := p
    by_cases hk : k = c
    · simp [bumpCat, hk, catSum]
      omega
    · have h' : c ∈ rest.map (fun p => p.1) := by
        rcases List.mem_cons.mp h with h | h
        · exact absurd h.symm hk
        · exact h
      have hrec := ih h'
      simp only [bumpCat, if_neg hk, catSum, List.map_cons, List.sum_cons] at hrec ⊢
      omega

theorem bumpCat_lookup_ne (l : List (String × Nat)) (c d : String) (hd : d ≠ c) :
    (bumpCat l c).find? (fun p => p.1 = d) = l.find? (fun p => p.1 = d) := by
  induction l with
  | nil => rfl
  | cons p rest ih =>
    obtain ⟨k, v⟩ := p
    by_cases hk : k = c
    · subst hk
      have hkd : ¬ k = d := Ne.symm hd
      simp [bumpCat, List.find?_cons, hkd]
    · simp only [bumpCat, if_neg hk, List.find?_cons]
      cases hkd : decide ((k, v).1 = d) with
      | true => rfl
      | false => exact ih

/-- One organize-loop step in explicit form. -/
theorem orgStep_eq (mv : Nat → Bool) (total idx : Nat) (name : String) (st : OrgState) :
    orgStep mv total idx name st =
      match (if mv idx then none else
          moveIntoCat st.fs name (classifyName name)
            (resolveOrg (catNames st.fs (classifyName name)) name)) with
      | some fs' =>
        { st with
          fs := fs'
          moved := st.moved + 1
          cats := bumpCat st.cats (classifyName name)
          trace := st.trace ++ [Event.progress (idx + 1) total name, Event.attempt name true] }
      | none =>
        { st with
          skipped := st.skipped + 1
          errors := st.errors ++ ["Error moving " ++ name]
          trace := st.trace ++ [Event.progress (idx + 1) total name,
            Event.attempt name false] } := by
  unfold orgStep
  dsimp only
  cases h : (if mv idx then none else
      moveIntoCat st.fs name (classifyName name)
        (resolveOrg (catNames st.fs (classifyName name)) name)) with
  | some fs' => simp
  | none => simp

theorem orgLoop_nil (mv : Nat → Bool) (total idx : Nat) (st : OrgState) :
    orgLoop mv total idx [] st = st := rfl

theorem orgLoop_cons (mv : Nat → Bool) (total idx : Nat) (n : String) (rest : List String)
    (st : OrgState) :
    orgLoop mv total idx (n :: rest) st =
      orgLoop mv total (idx + 1) rest (orgStep mv total idx n st) := rfl

theorem orgStep_counts (mv : Nat → Bool) (total idx : Nat) (name : String) (st : OrgState) :
    (orgStep mv total idx name st).moved + (orgStep mv total idx name st).skipped =
        st.moved + st.skipped + 1 ∧
      (orgStep mv total idx name st).errors.length + st.skipped =
        st.errors.length + (orgStep mv total idx name st).skipped ∧
      st.skipped ≤ (orgStep mv total idx name st).skipped := by
  rw [orgStep_eq]
  cases h : (if mv idx then none else
      moveIntoCat st.fs name (classifyName name)
        (resolveOrg (catNames st.fs (classifyName name)) name)) with
  | some fs' => simp <;> omega
  | none => simp <;> omega

theorem orgLoop_moved_skipped (mv : Nat → Bool) (total : Nat) (files : List String) :
    ∀ (idx : Nat) (st : OrgState),
      (orgLoop mv total idx files st).moved + (orgLoop mv total idx files st).skipped =
        st.moved + st.skipped + files.length := by
  induction files with
  | nil => intro idx st; rw [orgLoop_nil]; simp
  | cons n rest ih =>
    intro idx st
    rw [orgLoop_cons, ih]
    have := (orgStep_counts mv total idx n st).1
    simp only [List.length_cons]
    omega

theorem orgLoop_errors (mv : Nat → Bool) (total : Nat) (files : List String) :
    ∀ (idx : Nat) (st : OrgState),
      (orgLoop mv total idx files st).errors.length + st.skipped =
          st.errors.length + (orgLoop mv total idx files st).skipped ∧
        st.skipped ≤ (orgLoop mv total idx files st).skipped := by
  induction files with
  | nil => intro idx st; rw [orgLoop_nil]; simp
  | cons n rest ih =>
    intro idx st
    rw [orgLoop_cons]
    obtain ⟨ih1, ih2⟩ := ih (idx + 1) (orgStep mv total idx n st)
    obtain ⟨_, hs2, hs3⟩ := orgStep_counts mv total idx n st
    exact ⟨by omega, by omega⟩

theorem orgStep_cats (mv : Nat → Bool) (total idx : Nat) (name : String) (st : OrgState)
    (hmem : classifyName name ∈ st.cats.map (fun p => p.1)) :
    (orgStep mv total idx name st).cats.map (fun p => p.1) = st.cats.map (fun p => p.1) ∧
      catSum (orgStep mv total idx name st).cats + st.moved =
        catSum st.cats + (orgStep mv total idx name st).moved := by
  rw [orgStep_eq]
  cases h : (if mv idx then none else
      moveIntoCat st.fs name (classifyName name)
        (resolveOrg (catNames st.fs (classifyName name)) name)) with
  | some fs' =>
    refine ⟨bumpCat_keys _ _, ?_⟩
    simp only
    rw [bumpCat_catSum _ _ hmem]
    omega
  | none => exact ⟨rfl, rfl⟩

theorem orgLoop_cats (mv : Nat → Bool) (total : Nat) (files : List String) :
    ∀ (idx : Nat) (st : OrgState),
      (∀ n ∈ files, classifyName n ∈ st.cats.map (fun p => p.1)) →
      (orgLoop mv total idx files st).cats.map (fun p => p.1) = st.cats.map (fun p => p.1) ∧
        catSum (orgLoop mv total idx files st).cats + st.moved =
          catSum st.cats + (orgLoop mv total idx files st).moved := by
  induction files with
  | nil =>
    intro idx st _
    rw [orgLoop_nil]
    exact ⟨rfl, rfl⟩
  | cons n rest ih =>
    intro idx st hmem
    rw [orgLoop_cons]
    obtain ⟨hk, hsum⟩ := orgStep_cats mv total idx n st (hmem n (List.mem_cons_self _ _))
    obtain ⟨ihk, ihsum⟩ := ih (idx + 1) (orgStep mv total idx n st)
      (fun m hm => hk ▸ hmem m (List.mem_cons_of_mem _ hm))
    refine ⟨ihk.trans hk, ?_⟩
    omega

/-! ## The trace shape of the loops -/

/-- The event trace generated by a per-file loop: a progress invocation
immediately followed by the move attempt, for each file in order
(`bs` lists the attempts' outcomes). -/
def zipTrace (total : Nat) : Nat → List String → List Bool → List Event
  | _, [], _ => []
  | _, _ :: _, [] => []
  | idx, n :: ns, b :: bs =>
    Event.progress (idx + 1) total n :: Event.attempt n b :: zipTrace total (idx + 1) ns bs

theorem orgStep_trace (mv : Nat → Bool) (total idx : Nat) (name : String) (st : OrgState) :
    ∃ b : Bool, (orgStep mv total idx name st).trace =
      st.trace ++ [Event.progress (idx + 1) total name, Event.attempt name b] := by
  rw [orgStep_eq]
  cases h : (if mv idx then none else
      moveIntoCat st.fs name (classifyName name)
        (resolveOrg (catNames st.fs (classifyName name)) name)) with
  | some fs' => exact ⟨true, rfl⟩
  | none => exact ⟨false, rfl⟩

theorem orgLoop_trace (mv : Nat → Bool) (total : Nat) (files : List String) :
    ∀ (idx : Nat) (st : OrgState),
      ∃ bs : List Bool, bs.length = files.length ∧
        (orgLoop mv total idx files st).trace = st.trace ++ zipTrace total idx files bs := by
  induction files with
  | nil =>
    intro idx st
    exact ⟨[], rfl, by simp [orgLoop_nil, zipTrace]⟩
  | cons n rest ih =>
    intro idx st
    rw [orgLoop_cons]
    obtain ⟨b, hb⟩ := orgStep_trace mv total idx n st
    obtain ⟨bs, hlen, htr⟩ := ih (idx + 1) (orgStep mv total idx n st)
    refine ⟨b :: bs, by simp [hlen], ?_⟩
    rw [htr, hb]
    simp [zipTrace]

theorem zipTrace_length (total : Nat) :
    ∀ (idx : Nat) (ns : List String) (bs : List Bool), bs.length = ns.length →
      (zipTrace total idx ns bs).length = 2 * ns.length := by
  intro idx ns
  induction ns generalizing idx with
  | nil => intro bs _; simp [zipTrace]
  | cons n rest ih =>
    intro bs hlen
    cases bs with
    | nil => simp at hlen
    | cons b bs' =>
      simp only [zipTrace, List.length_cons]
      rw [ih (idx + 1) bs' (by simpa using hlen)]
      omega

theorem zipTrace_get (total : Nat) :
    ∀ (ns : List String) (bs : List Bool) (idx j : Nat) (hj : j < ns.length),
      bs.length = ns.length →
      (zipTrace total idx ns bs)[2 * j]? =
          some (Event.progress (idx + j + 1) total (ns.get ⟨j, hj⟩)) ∧
        ∃ b : Bool, (zipTrace total idx ns bs)[2 * j + 1]? =
          some (Event.attempt (ns.get ⟨j, hj⟩) b) := by
  intro ns
  induction ns with
  | nil => intro bs idx j hj; simp at hj
  | cons n rest ih =>
    intro bs idx j hj hlen
    cases bs with
    | nil => simp at hlen
    | cons b bs' =>
      cases j with
      | zero => exact ⟨by simp [zipTrace], b, by simp [zipTrace]⟩
      | succ j' =>
        have hj' : j' < rest.length := by simpa using hj
        obtain ⟨h1, b', h2⟩ := ih bs' (idx + 1) j' hj' (by simpa using hlen)
        have e1 : 2 * (j' + 1) = 2 * j' + 1 + 1 := by omega
        have e2 : 2 * (j' + 1) + 1 = 2 * j' + 1 + 1 + 1 := by omega
        refine ⟨?_, b', ?_⟩
        · rw [e1]
          simp only [zipTrace, List.getElem?_cons_succ]
          rw [h1]
          congr 2
          omega
        · rw [e2]
          simp only [zipTrace, List.getElem?_cons_succ]
          exact h2

/-! ## Accounting and trace lemmas for the undo loop -/

theorem undoStep_eq (mv : Nat → Bool) (total idx : Nat) (p : String × String) (st : UndoState) :
    undoStep mv total idx p st =
      match (if mv idx then none else
          moveToRoot st.fs p.1 p.2 (resolveUndo (rootNames st.fs) p.2)) with
      | some fs' =>
        { st with
          fs := fs'
          moved := st.moved + 1
          trace := st.trace ++ [Event.progress (idx + 1) total p.2, Event.attempt p.2 true] }
      | none =>
        { st with
          skipped := st.skipped + 1
          errors := st.errors ++ ["Error moving " ++ p.2]
          trace := st.trace ++ [Event.progress (idx + 1) total p.2,
            Event.attempt p.2 false] } := by
  unfold undoStep
  dsimp only
  cases h : (if mv idx then none else
      moveToRoot st.fs p.1 p.2 (resolveUndo (rootNames st.fs) p.2)) with
  | some fs' => simp
  | none => simp

theorem undoLoop_nil (mv : Nat → Bool) (total idx : Nat) (st : UndoState) :
    undoLoop mv total idx [] st = st := rfl

theorem undoLoop_cons (mv : Nat → Bool) (total idx : Nat) (p : String × String)
    (rest : List (String × String)) (st : UndoState) :
    undoLoop mv total idx (p :: rest) st =
      undoLoop mv total (idx + 1) rest (undoStep mv total idx p st) := rfl

theorem undoStep_counts (mv : Nat → Bool) (total idx : Nat) (p : String × String)
    (st : UndoState) :
    (undoStep mv total idx p st).moved + (undoStep mv total idx p st).skipped =
        st.moved + st.skipped + 1 ∧
      (undoStep mv total idx p st).errors.length + st.skipped =
        st.errors.length + (undoStep mv total idx p st).skipped ∧
      st.skipped ≤ (undoStep mv total idx p st).skipped := by
  rw [undoStep_eq]
  cases h : (if mv idx then none else
      moveToRoot st.fs p.1 p.2 (resolveUndo (rootNames st.fs) p.2)) with
  | some fs' => simp <;> omega
  | none => simp <;> omega

theorem undoLoop_moved_skipped (mv : Nat → Bool) (total : Nat)
    (batch : List (String × String)) :
    ∀ (idx : Nat) (st : UndoState),
      (undoLoop mv total idx batch st).moved + (undoLoop mv total idx batch st).skipped =
        st.moved + st.skipped + batch.length := by
  induction batch with
  | nil => intro idx st; rw [undoLoop_nil]; simp
  | cons p rest ih =>
    intro idx st
    rw [undoLoop_cons, ih]
    have := (undoStep_counts mv total idx p st).1
    simp only [List.length_cons]
    omega

theorem undoLoop_errors (mv : Nat → Bool) (total : Nat) (batch : List (String × String)) :
    ∀ (idx : Nat) (st : UndoState),
      (undoLoop mv total idx batch st).errors.length + st.skipped =
          st.errors.length + (undoLoop mv total idx batch st).skipped ∧
        st.skipped ≤ (undoLoop mv total idx batch st).skipped := by
  induction batch with
  | nil => intro idx st; rw [undoLoop_nil]; simp
  | cons p rest ih =>
    intro idx st
    rw [undoLoop_cons]
    obtain ⟨ih1, ih2⟩ := ih (idx + 1) (undoStep mv total idx p st)
    obtain ⟨_, hs2, hs3⟩ := undoStep_counts mv total idx p st
    exact ⟨by omega, by omega⟩

theorem undoStep_trace (mv : Nat → Bool) (total idx : Nat) (p : String × String)
    (st : UndoState) :
    ∃ b : Bool, (undoStep mv total idx p st).trace =
      st.trace ++ [Event.progress (idx + 1) total p.2, Event.attempt p.2 b] := by
  rw [undoStep_eq]
  cases h : (if mv idx then none else
      moveToRoot st.fs p.1 p.2 (resolveUndo (rootNames st.fs) p.2)) with
  | some fs' => exact ⟨true, rfl⟩
  | none => exact ⟨false, rfl⟩

theorem undoLoop_trace (mv : Nat → Bool) (total : Nat) (batch : List (String × String)) :
    ∀ (idx : Nat) (st : UndoState),
      ∃ bs : List Bool, bs.length = batch.length ∧
        (undoLoop mv total idx batch st).trace =
          st.trace ++ zipTrace total idx (batch.map (fun p => p.2)) bs := by
  induction batch with
  | nil =>
    intro idx st
    exact ⟨[], rfl, by simp [undoLoop_nil, zipTrace]⟩
  | cons p rest ih =>
    intro idx st
    rw [undoLoop_cons]
    obtain ⟨b, hb⟩ := undoStep_trace mv total idx p st
    obtain ⟨bs, hlen, htr⟩ := ih (idx + 1) (undoStep mv total idx p st)
    refine ⟨b :: bs, by simp [hlen], ?_⟩
    rw [htr, hb]
    simp [zipTrace]

/-! ## The folder-creation pass -/

theorem createCats_total (mk : String → Bool) :
    ∀ (cs : List String), (∀ c ∈ cs, mk c = false) →
      ∀ (fs : List Ent1) (acc : List (String × Nat)),
        ∃ fs1 cats, createCats mk cs fs acc = some (fs1, cats) := by
  intro cs
  induction cs with
  | nil => intro _ fs acc; exact ⟨fs, acc, rfl⟩
  | cons c rest ih =>
    intro h fs acc
    by_cases he : existsAt fs c = true
    · obtain ⟨fs1, cats, hrec⟩ := ih (fun x hx => h x (List.mem_cons_of_mem _ hx)) fs
        (acc ++ [(c, 0)])
      exact ⟨fs1, cats, by simp only [createCats, if_pos he]; exact hrec⟩
    · obtain ⟨fs1, cats, hrec⟩ := ih (fun x hx => h x (List.mem_cons_of_mem _ hx))
        (fs ++ [.dir c []]) (acc ++ [(c, 0)])
      refine ⟨fs1, cats, ?_⟩
      simpa [createCats, he, h c (List.mem_cons_self _ _)] using hrec

theorem createCats_spec (mk : String → Bool) :
    ∀ (cs : List String) (fs : List Ent1) (acc : List (String × Nat))
      (fs1 : List Ent1) (cats : List (String × Nat)),
      createCats mk cs fs acc = some (fs1, cats) →
      cats.map (fun p => p.1) = acc.map (fun p => p.1) ++ cs ∧
      ∃ ds : List String, fs1 = fs ++ ds.map (fun c => Ent1.dir c []) ∧
        ds.Nodup ∧ (∀ c ∈ ds, c ∉ rootNames fs) ∧ (∀ c ∈ ds, c ∈ cs) ∧
        (∀ c ∈ cs, existsAt fs c = true ∨ c ∈ ds) := by
  intro cs
  induction cs with
  | nil =>
    intro fs acc fs1 cats h
    obtain ⟨h1, h2⟩ := Prod.mk.injEq _ _ _ _ ▸ Option.some.injEq _ _ ▸ h
    subst h1; subst h2
    refine ⟨by simp, [], by simp, by simp, by simp, by simp, by simp⟩
  | cons c rest ih =>
    intro fs acc fs1 cats h
    by_cases he : existsAt fs c = true
    · rw [show createCats mk (c :: rest) fs acc =
          createCats mk rest fs (acc ++ [(c, 0)]) by simp [createCats, he]] at h
      obtain ⟨hkeys, ds, hfs, hnd, hnotin, hsub, hcover⟩ := ih fs (acc ++ [(c, 0)]) fs1 cats h
      refine ⟨by simpa using hkeys, ds, hfs, hnd, hnotin,
        fun x hx => List.mem_cons_of_mem _ (hsub x hx), ?_⟩
      intro x hx
      rcases List.mem_cons.mp hx with rfl | hx
      · exact Or.inl he
      · exact hcover x hx
    · have hmk : mk c = false := by
        by_contra hmk
        rw [show createCats mk (c :: rest) fs acc = none by
          simp [createCats, he, Bool.of_not_eq_false hmk]] at h
        exact Option.noConfusion h
      rw [show createCats mk (c :: rest) fs acc =
          createCats mk rest (fs ++ [.dir c []]) (acc ++ [(c, 0)]) by
          simp [createCats, he, hmk]] at h
      obtain ⟨hkeys, ds, hfs, hnd, hnotin, hsub, hcover⟩ :=
        ih (fs ++ [.dir c []]) (acc ++ [(c, 0)]) fs1 cats h
      have hcn : c ∉ rootNames fs := fun hc =>
        absurd ((existsAt_iff fs c).mpr hc) (by simp [he])
      have hds_c : c ∉ ds := by
        intro hc
        have := hnotin c hc
        rw [rootNames_append] at this
        simp [rootNames, Ent1.name] at this
      refine ⟨by simpa using hkeys, c :: ds, ?_, ?_, ?_, ?_, ?_⟩
      · rw [hfs]
        simp [List.append_assoc]
      · exact List.nodup_cons.mpr ⟨hds_c, hnd⟩
      · intro x hx
        rcases List.mem_cons.mp hx with rfl | hx
        · exact hcn
        · intro hmem
          apply hnotin x hx
          rw [rootNames_append]
          exact List.mem_append_left _ hmem
      · intro x hx
        rcases List.mem_cons.mp hx with rfl | hx
        · exact List.mem_cons_self _ _
        · exact List.mem_cons_of_mem _ (hsub x hx)
      · intro x hx
        rcases List.mem_cons.mp hx with rfl | hx
        · exact Or.inr (List.mem_cons_self _ _)
        · rcases hcover x hx with hex | hin
          · rw [existsAt_iff, rootNames_append] at hex
            rcases List.mem_append.mp hex with hex | hex
            · exact Or.inl ((existsAt_iff fs x).mpr hex)
            · simp only [rootNames, List.map_cons, List.map_nil, Ent1.name] at hex
              rcases List.mem_singleton.mp hex with rfl
              exact Or.inr (List.mem_cons_self _ _)
          · exact Or.inr (List.mem_cons_of_mem _ hin)

theorem createCats_catSum (mk : String → Bool) :
    ∀ (cs : List String) (fs : List Ent1) (acc : List (String × Nat))
      (fs1 : List Ent1) (cats : List (String × Nat)),
      createCats mk cs fs acc = some (fs1, cats) → catSum cats = catSum acc := by
  intro cs
  induction cs with
  | nil =>
    intro fs acc fs1 cats h
    obtain ⟨h1, h2⟩ := Prod.mk.injEq _ _ _ _ ▸ Option.some.injEq _ _ ▸ h
    rw [← h2]
  | cons c rest ih =>
    intro fs acc fs1 cats h
    by_cases he : existsAt fs c = true
    · rw [show createCats mk (c :: rest) fs acc =
          createCats mk rest fs (acc ++ [(c, 0)]) by simp [createCats, he]] at h
      rw [ih _ _ _ _ h]
      simp [catSum]
    · have hmk : mk c = false := by
        by_contra hmk
        rw [show createCats mk (c :: rest) fs acc = none by
          simp [createCats, he, Bool.of_not_eq_false hmk]] at h
        exact Option.noConfusion h
      rw [show createCats mk (c :: rest) fs acc =
          createCats mk rest (fs ++ [.dir c []]) (acc ++ [(c, 0)]) by
          simp [createCats, he, hmk]] at h
      rw [ih _ _ _ _ h]
      simp [catSum]

theorem classify_mem_needed {files : List String} {n : String} (h : n ∈ files) :
    classifyName n ∈ neededCats files := by
  unfold neededCats
  rw [List.mem_filter]
  refine ⟨classifyName_mem_catKeys n, ?_⟩
  rw [List.any_eq_true]
  exact ⟨n, h, by simp⟩

/-! ## Result projections (used to state concrete counterexamples) -/

def orgStatsOf : Except Unit (OrgRet × Root × List Event) → Option OrgStats
  | .ok (.stats s, _, _) => some s
  | _ => none

def orgRootOf : Except Unit (OrgRet × Root × List Event) → Root
  | .ok (_, r, _) => r
  | .error _ => .missing

def orgTraceOf : Except Unit (OrgRet × Root × List Event) → List Event
  | .ok (_, _, tr) => tr
  | .error _ => []

/-! # The claims -/

/-- **C2.**  The classifier is total and case-insensitive: every extension
listed in a category's extension set classifies to that category; every
other extension (the empty string included, via the second conjunct with
`strLower "" = ""` not in any set) classifies to `"Others"`; and
classification is invariant under lowering, e.g. `".JPG"` vs `".jpg"`. -/
theorem C2_classifier_total_case_insensitive :
    (∀ p ∈ FILE_CATEGORIES, ∀ e ∈ p.2, get_file_category e = p.1) ∧
      (∀ e : String, (∀ p ∈ FILE_CATEGORIES, strLower e ∉ p.2) →
        get_file_category e = "Others") ∧
      (∀ e : String, get_file_category e = get_file_category (strLower e)) := by
  refine ⟨by decide, ?_, ?_⟩
  · intro e h
    unfold get_file_category
    rw [List.find?_eq_none.mpr (fun p hp => by simp [h p hp])]
  · intro e
    unfold get_file_category
    rw [strLower_strLower]

theorem C2_witness :
    get_file_category ".jpg" = "Images" ∧
      get_file_category ".xyz" = "Others" ∧
      get_file_category ".JPG" = get_file_category ".jpg" :=
  ⟨C2_classifier_total_case_insensitive.1
      ("Images", [".jpg", ".jpeg", ".png", ".gif", ".bmp", ".svg", ".ico", ".webp"])
      (by decide) ".jpg" (by decide),
    C2_classifier_total_case_insensitive.2.1 ".xyz" (by decide),
    (C2_classifier_total_case_insensitive.2.2 ".JPG").trans rfl⟩

/-- **C3.**  Every completed organize run satisfies
`moved_files + skipped_files = total_files`, where `total_files` is the
number of regular files directly under the root at listing time, and the
per-category counters sum to `moved_files` (each successful move bumps
exactly one counter). -/
theorem C3_stats_invariant (es : List Ent1) (mk : String → Bool) (mv : Nat → Bool)
    (s : OrgStats) (r : Root) (tr : List Event)
    (h : organize (.dir es) mk mv = .ok (.stats s, r, tr)) :
    s.moved_files + s.skipped_files = s.total_files ∧
      s.total_files = (rootFiles es).length ∧
      catSum s.categories = s.moved_files := by
  cases hc : createCats mk (neededCats (rootFiles es)) es [] with
  | none =>
    rw [show organize (.dir es) mk mv = .error () by simp [organize, hc]] at h
    exact absurd h (by simp)
  | some pr =>
    obtain ⟨fs1, cats0⟩ := pr
    set st := orgLoop mv (rootFiles es).length 0 (rootFiles es)
      (⟨fs1, 0, 0, cats0, [], []⟩ : OrgState) with hst
    have horg : organize (.dir es) mk mv =
        .ok (.stats ⟨(rootFiles es).length, st.moved, st.skipped, st.cats, st.errors⟩,
          .dir st.fs, st.trace) := by
      simp [organize, hc, hst]
    rw [horg] at h
    simp only [Except.ok.injEq, Prod.mk.injEq, OrgRet.stats.injEq] at h
    obtain ⟨hs, hr, htr⟩ := h
    subst hs
    refine ⟨?_, rfl, ?_⟩
    · show st.moved + st.skipped = (rootFiles es).length
      have := orgLoop_moved_skipped mv (rootFiles es).length (rootFiles es) 0
        ⟨fs1, 0, 0, cats0, [], []⟩
      simpa using this
    · show catSum st.cats = st.moved
      have hkeys := (createCats_spec mk _ es [] fs1 cats0 hc).1
      simp only [List.map_nil, List.nil_append] at hkeys
      have hmem : ∀ n ∈ rootFiles es,
          classifyName n ∈ (OrgState.cats ⟨fs1, 0, 0, cats0, [], []⟩).map (fun p => p.1) := by
        intro n hn
        show classifyName n ∈ cats0.map (fun p => p.1)
        rw [hkeys]
        exact classify_mem_needed hn
      have hloop : catSum st.cats + 0 = catSum cats0 + st.moved :=
        (orgLoop_cats mv (rootFiles es).length (rootFiles es) 0
          ⟨fs1, 0, 0, cats0, [], []⟩ hmem).2
      have hz : catSum cats0 = 0 := createCats_catSum mk _ es [] fs1 cats0 hc
      omega

theorem C3_witness :
    (2 : Nat) + 0 = 2 ∧
      (2 : Nat) = (rootFiles [Ent1.file "photo.png", Ent1.file "report.pdf"]).length ∧
      catSum [("Images", 1), ("Documents", 1)] = 2 :=
  C3_stats_invariant [Ent1.file "photo.png", Ent1.file "report.pdf"]
    (fun _ => false) (fun _ => false)
    ⟨2, 2, 0, [("Images", 1), ("Documents", 1)], []⟩
    (.dir [.dir "Images" [.file "photo.png"], .dir "Documents" [.file "report.pdf"]])
    [.progress 1 2 "photo.png", .attempt "photo.png" true,
      .progress 2 2 "report.pdf", .attempt "report.pdf" true] rfl

/-- **C4.**  Collision-safe renaming never targets an occupied name: the
destination name resolved by `organize_files` (`resolveOrg`, used in
`orgStep` against the names in the category folder) and by
`undo_organize_files` (`resolveUndo`, used in `undoStep` against the
names at the root) is never an existing one — and the engines' moves
(`moveIntoCat`, `moveToRoot`) are only performed on that free name.  On
a collision, organize tries `base_1.ext`, `base_2.ext`, … in order until
free, while undo tries `base_restored_1.ext`, `base_restored_2.ext`, …
— distinct suffix schemes. -/
theorem C4_collision_safe_renaming (taken : List String) (name : String) :
    resolveOrg taken name ∉ taken ∧
      resolveUndo taken name ∉ taken ∧
      (name ∉ taken → resolveOrg taken name = name ∧ resolveUndo taken name = name) ∧
      (name ∈ taken →
        (∃ k, 1 ≤ k ∧
          resolveOrg taken name = candOrg (splitext name).1 (splitext name).2 k ∧
          ∀ i, 1 ≤ i → i < k → candOrg (splitext name).1 (splitext name).2 i ∈ taken) ∧
        (∃ k, 1 ≤ k ∧
          resolveUndo taken name = candUndo (splitext name).1 (splitext name).2 k ∧
          ∀ i, 1 ≤ i → i < k → candUndo (splitext name).1 (splitext name).2 i ∈ taken)) := by
  obtain ⟨ho1, ho2, ho3⟩ := resolveOrg_spec taken name
  obtain ⟨hu1, hu2, hu3⟩ := resolveUndo_spec taken name
  exact ⟨ho1, hu1, fun h => ⟨ho2 h, hu2 h⟩, fun h => ⟨ho3 h, hu3 h⟩⟩

theorem C4_witness :
    ("a.txt" ∈ ["a.txt", "a_1.txt"]) ∧
      resolveOrg ["a.txt", "a_1.txt"] "a.txt" ∉ ["a.txt", "a_1.txt"] ∧
      resolveUndo ["a.txt"] "a.txt" ∉ ["a.txt"] ∧
      (∃ k, 1 ≤ k ∧
        resolveOrg ["a.txt", "a_1.txt"] "a.txt" =
          candOrg (splitext "a.txt").1 (splitext "a.txt").2 k ∧
        ∀ i, 1 ≤ i → i < k →
          candOrg (splitext "a.txt").1 (splitext "a.txt").2 i ∈ ["a.txt", "a_1.txt"]) :=
  ⟨by decide, (C4_collision_safe_renaming ["a.txt", "a_1.txt"] "a.txt").1,
    (C4_collision_safe_renaming ["a.txt"] "a.txt").2.1,
    ((C4_collision_safe_renaming ["a.txt", "a_1.txt"] "a.txt").2.2.2 (by decide)).1⟩

/-- **C5, counterexample.**  A completed organize run (the single move
fails through the injected environmental failure) whose `categories`
mapping contains the zero-count entry `("Documents", 0)` — the claim
says no zero-count entry can appear. -/
theorem C5_counterexample :
    (orgStatsOf (organize (.dir [.file "a.txt"]) (fun _ => false) (fun _ => true))).map
        (fun s => s.categories) = some [("Documents", 0)] ∧
      (orgStatsOf (organize (.dir [.file "a.txt"]) (fun _ => false) (fun _ => true))).map
        (fun s => s.moved_files) = some 0 :=
  ⟨rfl, rfl⟩

/-- **C5, amended.**  The `categories` mapping of a completed organize
run contains an entry exactly for each category to which at least one
candidate file is classified, and each such category exactly once; the
order of the entries is not asserted (the code fills the dict by
iterating a Python set, whose order is arbitrary).  The entries are
initialised to zero, so a category whose files all fail to move appears
with count zero (see the counterexample). -/
theorem C5_amended (es : List Ent1) (mk : String → Bool) (mv : Nat → Bool)
    (s : OrgStats) (r : Root) (tr : List Event)
    (h : organize (.dir es) mk mv = .ok (.stats s, r, tr)) :
    (∀ c, c ∈ s.categories.map (fun p => p.1) ↔
        ∃ n ∈ rootFiles es, classifyName n = c) ∧
      (s.categories.map (fun p => p.1)).Nodup := by
  suffices hkey : s.categories.map (fun p => p.1) = neededCats (rootFiles es) by
    rw [hkey]
    constructor
    · intro c
      unfold neededCats
      simp only [List.mem_filter, List.any_eq_true, decide_eq_true_eq]
      constructor
      · rintro ⟨-, n, hn, he⟩
        exact ⟨n, hn, he⟩
      · rintro ⟨n, hn, he⟩
        exact ⟨he ▸ classifyName_mem_catKeys n, n, hn, he⟩
    · exact List.Nodup.filter _ (by decide)
  cases hc : createCats mk (neededCats (rootFiles es)) es [] with
  | none =>
    rw [show organize (.dir es) mk mv = .error () by simp [organize, hc]] at h
    exact absurd h (by simp)
  | some pr =>
    obtain ⟨fs1, cats0⟩ := pr
    set st := orgLoop mv (rootFiles es).length 0 (rootFiles es)
      (⟨fs1, 0, 0, cats0, [], []⟩ : OrgState) with hst
    have horg : organize (.dir es) mk mv =
        .ok (.stats ⟨(rootFiles es).length, st.moved, st.skipped, st.cats, st.errors⟩,
          .dir st.fs, st.trace) := by
      simp [organize, hc, hst]
    rw [horg] at h
    simp only [Except.ok.injEq, Prod.mk.injEq, OrgRet.stats.injEq] at h
    obtain ⟨hs, hr, htr⟩ := h
    subst hs
    show st.cats.map (fun p => p.1) = neededCats (rootFiles es)
    have hkeys := (createCats_spec mk _ es [] fs1 cats0 hc).1
    simp only [List.map_nil, List.nil_append] at hkeys
    have hmem : ∀ n ∈ rootFiles es,
        classifyName n ∈ (OrgState.cats ⟨fs1, 0, 0, cats0, [], []⟩).map (fun p => p.1) := by
      intro n hn
      show classifyName n ∈ cats0.map (fun p => p.1)
      rw [hkeys]
      exact classify_mem_needed hn
    have hpres : st.cats.map (fun p => p.1) = cats0.map (fun p => p.1) :=
      (orgLoop_cats mv (rootFiles es).length (rootFiles es) 0
        ⟨fs1, 0, 0, cats0, [], []⟩ hmem).1
    exact hpres.trans hkeys

theorem C5_amended_witness :
    (∀ c, c ∈ ([("Documents", 0)] : List (String × Nat)).map (fun p => p.1) ↔
        ∃ n ∈ rootFiles [Ent1.file "a.txt"], classifyName n = c) ∧
      (([("Documents", 0)] : List (String × Nat)).map (fun p => p.1)).Nodup :=
  C5_amended [Ent1.file "a.txt"] (fun _ => false) (fun _ => true)
    ⟨1, 0, 1, [("Documents", 0)], ["Error moving a.txt"]⟩
    (.dir [.file "a.txt", .dir "Documents" []])
    [.progress 1 1 "a.txt", .attempt "a.txt" false] rfl

/-- **C6, counterexample.**  An injected failure of `os.makedirs` while
creating the `Documents` category folder escapes `organize_files` as an
exception (`Except.error ()`): it is not converted into an `errors`
entry and aborts the whole run, because lines 66–69 of `app.py` are
outside any `try`. -/
theorem C6_counterexample :
    organize (.dir [.file "a.txt"]) (fun c => c == "Documents") (fun _ => false) =
        .error () ∧
      (fun c => c == "Documents") "Documents" = true :=
  ⟨rfl, rfl⟩

/-- **C6, amended.**  Failures while *moving* a specific file are caught
and converted into error messages: whatever moves fail, a run whose
folder-creation pass does not fail always completes (returns a result,
never an exception), every failed move adds one message to `errors` and
counts the file as skipped (`errors.length = skipped_files`), and
processing continues over all files (`moved + skipped = total`).
A failure while *creating a category subfolder*, by contrast, escapes as
an exception (see the counterexample). -/
theorem C6_amended (es : List Ent1) (mv : Nat → Bool) :
    ∃ s r tr, organize (.dir es) (fun _ => false) mv = .ok (.stats s, r, tr) ∧
      s.errors.length = s.skipped_files ∧
      s.moved_files + s.skipped_files = s.total_files := by
  obtain ⟨fs1, cats0, hc⟩ :=
    createCats_total (fun _ => false) (neededCats (rootFiles es)) (fun _ _ => rfl) es []
  set st := orgLoop mv (rootFiles es).length 0 (rootFiles es)
    (⟨fs1, 0, 0, cats0, [], []⟩ : OrgState) with hst
  refine ⟨⟨(rootFiles es).length, st.moved, st.skipped, st.cats, st.errors⟩,
    .dir st.fs, st.trace, by simp [organize, hc, hst], ?_, ?_⟩
  · show st.errors.length = st.skipped
    have he : st.errors.length + 0 = 0 + st.skipped :=
      (orgLoop_errors mv (rootFiles es).length (rootFiles es) 0
        ⟨fs1, 0, 0, cats0, [], []⟩).1
    omega
  · show st.moved + st.skipped = (rootFiles es).length
    have : st.moved + st.skipped = 0 + 0 + (rootFiles es).length :=
      orgLoop_moved_skipped mv (rootFiles es).length (rootFiles es) 0
        ⟨fs1, 0, 0, cats0, [], []⟩
    omega

/-- **C7, counterexample.**  On a one-file folder the recorded trace is
`[progress 1 1 "a.jpg", attempt "a.jpg"]`: the progress callback is
invoked *before* the move attempt, so no invocation occurs after its
file's move attempt, contradicting the claim's ordering. -/
theorem C7_counterexample :
    orgTraceOf (organize (.dir [.file "a.jpg"]) (fun _ => false) (fun _ => false)) =
        [.progress 1 1 "a.jpg", .attempt "a.jpg" true] ∧
      ¬ ∃ i j : Nat, i < j ∧
          (orgTraceOf (organize (.dir [.file "a.jpg"])
            (fun _ => false) (fun _ => false)))[i]? = some (.attempt "a.jpg" true) ∧
          (orgTraceOf (organize (.dir [.file "a.jpg"])
            (fun _ => false) (fun _ => false)))[j]? = some (.progress 1 1 "a.jpg") := by
  refine ⟨rfl, ?_⟩
  rintro ⟨i, j, hij, hi, hj⟩
  rw [show orgTraceOf (organize (.dir [.file "a.jpg"]) (fun _ => false) (fun _ => false)) =
      [Event.progress 1 1 "a.jpg", Event.attempt "a.jpg" true] from rfl] at hi hj
  have hi1 : i = 1 := by
    match i, hi with
    | 0, hi => exact absurd hi (by decide)
    | 1, _ => rfl
    | n + 2, hi =>
      rw [List.getElem?_eq_none (by simp)] at hi
      exact Option.noConfusion hi
  have hj0 : j = 0 := by
    match j, hj with
    | 0, _ => rfl
    | 1, hj => exact absurd hj (by decide)
    | n + 2, hj =>
      rw [List.getElem?_eq_none (by simp)] at hj
      exact Option.noConfusion hj
  omega

/-- **C7, amended.**  When a progress callback is supplied to organize
or undo, it is invoked exactly once per candidate file, with
`(1-based index, total_files, filename)`, and each invocation occurs
immediately *before* that file's move attempt: the trace consists of
exactly `progress (j+1) total name_j` at position `2j` followed by the
attempt for `name_j` at position `2j+1`. -/
theorem C7_amended :
    (∀ (es : List Ent1) (mk : String → Bool) (mv : Nat → Bool) (s : OrgStats) (r : Root)
      (tr : List Event), organize (.dir es) mk mv = .ok (.stats s, r, tr) →
      tr.length = 2 * (rootFiles es).length ∧
      ∀ j (hj : j < (rootFiles es).length),
        tr[2 * j]? = some (.progress (j + 1) (rootFiles es).length
          ((rootFiles es).get ⟨j, hj⟩)) ∧
        ∃ b, tr[2 * j + 1]? = some (.attempt ((rootFiles es).get ⟨j, hj⟩) b)) ∧
    (∀ (es : List Ent1) (mv : Nat → Bool) (s : UndoStats) (r : Root) (tr : List Event),
      undo (.dir es) mv = .ok (.stats s, r, tr) →
      tr.length = 2 * (undoBatch es).length ∧
      ∀ j (hj : j < ((undoBatch es).map (fun p => p.2)).length),
        tr[2 * j]? = some (.progress (j + 1) (undoBatch es).length
          (((undoBatch es).map (fun p => p.2)).get ⟨j, hj⟩)) ∧
        ∃ b, tr[2 * j + 1]? =
          some (.attempt (((undoBatch es).map (fun p => p.2)).get ⟨j, hj⟩) b)) := by
  constructor
  · intro es mk mv s r tr h
    cases hc : createCats mk (neededCats (rootFiles es)) es [] with
    | none =>
      rw [show organize (.dir es) mk mv = .error () by simp [organize, hc]] at h
      exact absurd h (by simp)
    | some pr =>
      obtain ⟨fs1, cats0⟩ := pr
      set st := orgLoop mv (rootFiles es).length 0 (rootFiles es)
        (⟨fs1, 0, 0, cats0, [], []⟩ : OrgState) with hst
      have horg : organize (.dir es) mk mv =
          .ok (.stats ⟨(rootFiles es).length, st.moved, st.skipped, st.cats, st.errors⟩,
            .dir st.fs, st.trace) := by
        simp [organize, hc, hst]
      rw [horg] at h
      simp only [Except.ok.injEq, Prod.mk.injEq, OrgRet.stats.injEq] at h
      obtain ⟨hs, hr, htr⟩ := h
      subst htr
      obtain ⟨bs, hlen, htrace⟩ := orgLoop_trace mv (rootFiles es).length (rootFiles es) 0
        ⟨fs1, 0, 0, cats0, [], []⟩
      have htrace' : st.trace = zipTrace (rootFiles es).length 0 (rootFiles es) bs := by
        rw [← hst] at htrace
        simpa using htrace
      rw [htrace']
      refine ⟨zipTrace_length _ _ _ _ hlen, ?_⟩
      intro j hj
      obtain ⟨h1, b, h2⟩ := zipTrace_get (rootFiles es).length (rootFiles es) bs 0 j hj hlen
      rw [Nat.zero_add] at h1
      exact ⟨h1, b, h2⟩
  · intro es mv s r tr h
    set st := undoLoop mv (undoBatch es).length 0 (undoBatch es)
      (⟨es, 0, 0, [], []⟩ : UndoState) with hst
    have hundo : undo (.dir es) mv =
        .ok (.stats ⟨(undoBatch es).length, st.moved, st.skipped, st.errors⟩,
          .dir (cleanup catKeys st.fs), st.trace) := by
      simp [undo, hst]
    rw [hundo] at h
    simp only [Except.ok.injEq, Prod.mk.injEq, UndoRet.stats.injEq] at h
    obtain ⟨hs, hr, htr⟩ := h
    subst htr
    obtain ⟨bs, hlen, htrace⟩ := undoLoop_trace mv (undoBatch es).length (undoBatch es) 0
      ⟨es, 0, 0, [], []⟩
    have hlen' : bs.length = ((undoBatch es).map (fun p => p.2)).length := by
      rw [List.length_map]
      exact hlen
    have htrace' : st.trace =
        zipTrace (undoBatch es).length 0 ((undoBatch es).map (fun p => p.2)) bs := by
      rw [← hst] at htrace
      simpa using htrace
    rw [htrace']
    refine ⟨?_, ?_⟩
    · rw [zipTrace_length _ _ _ _ hlen', List.length_map]
    · intro j hj
      obtain ⟨h1, b, h2⟩ :=
        zipTrace_get (undoBatch es).length ((undoBatch es).map (fun p => p.2)) bs 0 j hj hlen'
      rw [Nat.zero_add] at h1
      exact ⟨h1, b, h2⟩

theorem C7_witness :
    ([Event.progress 1 1 "a.jpg", Event.attempt "a.jpg" true] : List Event)[2 * 0]? =
      some (.progress (0 + 1) (rootFiles [Ent1.file "a.jpg"]).length
        ((rootFiles [Ent1.file "a.jpg"]).get ⟨0, by decide⟩)) :=
  ((C7_amended.1 [.file "a.jpg"] (fun _ => false) (fun _ => false)
    ⟨1, 1, 0, [("Images", 1)], []⟩ (.dir [.dir "Images" [.file "a.jpg"]])
    [.progress 1 1 "a.jpg", .attempt "a.jpg" true] rfl).2 0 (by decide)).1

/-- **C8.**  On a missing root path, organize and undo return the
distinguished `notFound` result (the `{"error": ...}` dictionary, not a
count-based result), preview returns the `None` sentinel, and in all
three cases the filesystem is returned unchanged. -/
theorem C8_not_found (mk : String → Bool) (mv mv' : Nat → Bool) :
    organize .missing mk mv = .ok (.notFound, .missing, []) ∧
      undo .missing mv' = .ok (.notFound, .missing, []) ∧
      preview .missing = .ok none :=
  ⟨rfl, rfl, rfl⟩

/-- **C10, counterexample.**  On a root path that is a regular file,
`undo_organize_files` does *not* raise: it never lists the root itself
(only `os.path.isdir(root/cat)` checks, all false), so it returns a
normal zero-count result instead of raising. -/
theorem C10_counterexample :
    undo .file (fun _ => false) = .ok (.stats ⟨0, 0, 0, []⟩, .file, []) ∧
      undo .file (fun _ => false) ≠ .error () := by
  refine ⟨rfl, ?_⟩
  intro h
  rw [show undo .file (fun _ => false) = .ok (.stats ⟨0, 0, 0, []⟩, .file, []) from rfl] at h
  exact Except.noConfusion h

/-- **C10, amended.**  The not-found precondition of all three entry
points tests only path existence: on a root that exists as a regular
file none of them returns the not-found indicator; `organize_files` and
`preview_organization` then raise from the unguarded `os.listdir`, while
`undo_organize_files` — which never lists the root directly — returns a
plain zero-count result. -/
theorem C10_amended (mk : String → Bool) (mv mv' : Nat → Bool) :
    organize .file mk mv = .error () ∧
      preview .file = .error () ∧
      undo .file mv' = .ok (.stats ⟨0, 0, 0, []⟩, .file, []) :=
  ⟨rfl, rfl, rfl⟩

/-! ## Clean-run lemmas -/

theorem lookup1_eq_none (fs : List Ent1) (m : String) :
    lookup1 fs m = none ↔ m ∉ rootNames fs := by
  unfold lookup1 rootNames
  rw [List.find?_eq_none]
  constructor
  · intro h hm
    obtain ⟨e, he, rfl⟩ := List.mem_map.mp hm
    exact absurd (by simp : (decide (e.name = e.name)) = true) (by simpa using h e he)
  · intro h e he
    simp only [decide_eq_true_eq]
    exact fun hn => h (hn ▸ List.mem_map_of_mem _ he)

theorem mem_rootFiles_iff (fs : List Ent1) (n : String) :
    n ∈ rootFiles fs ↔ Ent1.file n ∈ fs := by
  unfold rootFiles
  rw [List.mem_filterMap]
  constructor
  · rintro ⟨e, he, hs⟩
    cases e with
    | file k =>
      obtain rfl := Option.some.injEq _ _ ▸ hs
      exact he
    | dir k es => exact absurd hs (by simp)
  · intro h
    exact ⟨.file n, h, rfl⟩

theorem rootFiles_sublist_rootNames (fs : List Ent1) :
    List.Sublist (rootFiles fs) (rootNames fs) := by
  induction fs with
  | nil => exact List.Sublist.refl _
  | cons e rest ih =>
    cases e with
    | file k =>
      simp only [rootFiles, rootNames, List.filterMap_cons, List.map_cons]
      exact List.Sublist.cons₂ _ ih
    | dir k es =>
      simp only [rootFiles, rootNames, List.filterMap_cons, List.map_cons]
      exact List.Sublist.cons _ ih

theorem lookup1_file_of_mem (fs : List Ent1) (n : String)
    (hnd : (rootNames fs).Nodup) (h : n ∈ rootFiles fs) :
    lookup1 fs n = some (.file n) := by
  induction fs with
  | nil => simp [rootFiles] at h
  | cons e rest ih =>
    have hnd' : (rootNames rest).Nodup := (List.nodup_cons.mp hnd).2
    have hhead : e.name ∉ rootNames rest := (List.nodup_cons.mp hnd).1
    cases e with
    | file k =>
      by_cases hk : k = n
      · subst hk
        rw [lookup1_cons, if_pos (show (Ent1.file k).name = k from rfl)]
      · rw [lookup1_cons, if_neg (by simpa [Ent1.name] using hk)]
        apply ih hnd'
        rcases List.mem_cons.mp ((mem_rootFiles_iff _ _).mp h) with he | he
        · exact absurd (by injection he with h1; exact h1.symm) hk
        · exact (mem_rootFiles_iff _ _).mpr he
    | dir k es =>
      by_cases hk : k = n
      · subst hk
        exfalso
        have hmem : Ent1.file k ∈ rest := by
          rcases List.mem_cons.mp ((mem_rootFiles_iff _ _).mp h) with he | he
          · exact Ent1.noConfusion he
          · exact he
        apply hhead
        show (Ent1.dir k es).name ∈ rootNames rest
        have hf : k ∈ rootFiles rest := (mem_rootFiles_iff _ _).mpr hmem
        simpa [Ent1.name] using (rootFiles_sublist_rootNames rest).subset hf
      · rw [lookup1_cons, if_neg (by simpa [Ent1.name] using hk)]
        apply ih hnd'
        rcases List.mem_cons.mp ((mem_rootFiles_iff _ _).mp h) with he | he
        · exact Ent1.noConfusion he
        · exact (mem_rootFiles_iff _ _).mpr he

theorem rootNames_removeRootFile (fs : List Ent1) (n : String)
    (hl : lookup1 fs n = some (.file n)) :
    rootNames (removeRootFile fs n) = (rootNames fs).erase n := by
  induction fs with
  | nil => simp [lookup1] at hl
  | cons e rest ih =>
    cases e with
    | file k =>
      by_cases hk : k = n
      · subst hk
        rw [show removeRootFile (Ent1.file k :: rest) k = rest by simp [removeRootFile]]
        simp only [rootNames, List.map_cons, Ent1.name]
        rw [List.erase_cons_head]
      · rw [show removeRootFile (Ent1.file k :: rest) n = Ent1.file k :: removeRootFile rest n
            by simp [removeRootFile, hk]]
        rw [lookup1_cons, if_neg (by simpa [Ent1.name] using hk)] at hl
        simp only [rootNames, List.map_cons, Ent1.name]
        rw [List.erase_cons_tail (by simp [hk])]
        exact congrArg (k :: ·) (ih hl)
    | dir k es =>
      by_cases hk : k = n
      · subst hk
        rw [lookup1_cons, if_pos (show (Ent1.dir k es).name = k from rfl)] at hl
        exact absurd (Option.some.injEq _ _ ▸ hl) (by simp)
      · rw [show removeRootFile (Ent1.dir k es :: rest) n =
            Ent1.dir k es :: removeRootFile rest n from rfl]
        rw [lookup1_cons, if_neg (by simpa [Ent1.name] using hk)] at hl
        simp only [rootNames, List.map_cons, Ent1.name]
        rw [List.erase_cons_tail (by simp [hk])]
        exact congrArg (k :: ·) (ih hl)

/-- Combined effect of one successful organize move
(`addToCat (removeRootFile fs n) cat dst`) on all observables. -/
theorem move_effects (fs : List Ent1) (n cat dst : String)
    (hnd : (rootNames fs).Nodup)
    (hl : lookup1 fs n = some (.file n))
    (hd : isDirAt fs cat = true) :
    (∀ d, isDirAt (addToCat (removeRootFile fs n) cat dst) d = isDirAt fs d) ∧
      rootNames (addToCat (removeRootFile fs n) cat dst) = (rootNames fs).erase n ∧
      rootFiles (addToCat (removeRootFile fs n) cat dst) = (rootFiles fs).erase n ∧
      (∀ m, m ≠ n → m ≠ cat →
        lookup1 (addToCat (removeRootFile fs n) cat dst) m = lookup1 fs m) ∧
      dirEntries (addToCat (removeRootFile fs n) cat dst) cat =
        dirEntries fs cat ++ [Ent2.file dst] ∧
      (∀ c, c ≠ cat → dirEntries (addToCat (removeRootFile fs n) cat dst) c =
        dirEntries fs c) := by
  have hncat : n ≠ cat := by
    intro he
    subst he
    unfold isDirAt at hd
    rw [hl] at hd
    exact Bool.noConfusion hd
  have hrm_none : lookup1 (removeRootFile fs n) n = none := by
    rw [lookup1_eq_none, rootNames_removeRootFile fs n hl]
    exact hnd.not_mem_erase
  refine ⟨?_, ?_, ?_, ?_, ?_, ?_⟩
  · intro d
    rw [addToCat_isDirAt]
    by_cases hdn : d = n
    · subst hdn
      unfold isDirAt
      rw [hrm_none, hl]
    · exact removeRootFile_isDirAt_ne fs n d hdn
  · rw [addToCat_rootNames, rootNames_removeRootFile fs n hl]
  · rw [addToCat_rootFiles, removeRootFile_rootFiles]
  · intro m hmn hmcat
    rw [addToCat_lookup_ne _ _ _ _ hmcat, removeRootFile_lookup _ _ _ hmn]
  · rw [addToCat_dirEntries_self _ _ _
      (by rw [removeRootFile_isDirAt_ne fs n cat (Ne.symm hncat)]; exact hd),
      removeRootFile_dirEntries_ne fs n cat (Ne.symm hncat)]
  · intro c hc
    rw [addToCat_dirEntries_ne _ _ _ _ hc]
    by_cases hcn : c = n
    · subst hcn
      unfold dirEntries
      rw [hrm_none, hl]
    · exact removeRootFile_dirEntries_ne fs n c hcn

/-- A fault-free organize loop over candidates that are all root files
with an existing category folder moves every one of them out of the
root, preserves which names are directories, and skips nothing. -/
theorem orgLoop_moves_all (total : Nat) (files : List String) :
    ∀ (idx : Nat) (st : OrgState),
      (rootNames st.fs).Nodup →
      files.Nodup →
      (∀ n ∈ files, lookup1 st.fs n = some (.file n)) →
      (∀ n ∈ files, isDirAt st.fs (classifyName n) = true) →
      rootFiles (orgLoop (fun _ => false) total idx files st).fs =
          (rootFiles st.fs).filter (fun n => decide (n ∉ files)) ∧
        (∀ d, isDirAt (orgLoop (fun _ => false) total idx files st).fs d = isDirAt st.fs d) ∧
        (rootNames (orgLoop (fun _ => false) total idx files st).fs).Nodup ∧
        (orgLoop (fun _ => false) total idx files st).moved = st.moved + files.length ∧
        (orgLoop (fun _ => false) total idx files st).skipped = st.skipped := by
  induction files with
  | nil =>
    intro idx st hnd _ _ _
    rw [orgLoop_nil]
    refine ⟨?_, fun d => rfl, hnd, rfl, rfl⟩
    simp
  | cons n rest ih =>
    intro idx st hnd hfnd hlk hdir
    rw [orgLoop_cons]
    have hl := hlk n (List.mem_cons_self _ _)
    have hd := hdir n (List.mem_cons_self _ _)
    have hfree : catHas st.fs (classifyName n)
        (resolveOrg (catNames st.fs (classifyName n)) n) = false := by
      rw [← Bool.not_eq_true]
      intro hh
      exact (resolveOrg_spec (catNames st.fs (classifyName n)) n).1 ((catHas_iff _ _ _).mp hh)
    have hmv : moveIntoCat st.fs n (classifyName n)
        (resolveOrg (catNames st.fs (classifyName n)) n) =
        some (addToCat (removeRootFile st.fs n) (classifyName n)
          (resolveOrg (catNames st.fs (classifyName n)) n)) :=
      moveIntoCat_eq _ _ _ _ hl hd hfree
    have hstep : orgStep (fun _ => false) total idx n st =
        { st with
          fs := addToCat (removeRootFile st.fs n) (classifyName n)
            (resolveOrg (catNames st.fs (classifyName n)) n)
          moved := st.moved + 1
          cats := bumpCat st.cats (classifyName n)
          trace := st.trace ++ [Event.progress (idx + 1) total n, Event.attempt n true] } := by
      rw [orgStep_eq]
      rw [show (if (fun _ : Nat => false) idx then none else moveIntoCat st.fs n (classifyName n)
          (resolveOrg (catNames st.fs (classifyName n)) n)) =
          some (addToCat (removeRootFile st.fs n) (classifyName n)
            (resolveOrg (catNames st.fs (classifyName n)) n)) by
        simpa using hmv]
    obtain ⟨eff1, eff2, eff3, eff4, eff5, eff6⟩ :=
      move_effects st.fs n (classifyName n)
        (resolveOrg (catNames st.fs (classifyName n)) n) hnd hl hd
    rw [hstep]
    have hnrest : n ∉ rest := (List.nodup_cons.mp hfnd).1
    have hmcat : ∀ m ∈ rest, m ≠ classifyName n := by
      intro m hm he
      have h1 := hlk m (List.mem_cons_of_mem _ hm)
      rw [he] at h1
      unfold isDirAt at hd
      rw [h1] at hd
      exact Bool.noConfusion hd
    obtain ⟨ih1, ih2, ih3, ih4, ih5⟩ := ih (idx + 1)
      { st with
        fs := addToCat (removeRootFile st.fs n) (classifyName n)
          (resolveOrg (catNames st.fs (classifyName n)) n)
        moved := st.moved + 1
        cats := bumpCat st.cats (classifyName n)
        trace := st.trace ++ [Event.progress (idx + 1) total n, Event.attempt n true] }
      (by
        show (rootNames (addToCat (removeRootFile st.fs n) (classifyName n)
          (resolveOrg (catNames st.fs (classifyName n)) n))).Nodup
        rw [eff2]
        exact hnd.erase n)
      (List.nodup_cons.mp hfnd).2
      (by
        intro m hm
        show lookup1 (addToCat (removeRootFile st.fs n) (classifyName n)
          (resolveOrg (catNames st.fs (classifyName n)) n)) m = some (.file m)
        rw [eff4 m (fun he => hnrest (he ▸ hm)) (hmcat m hm)]
        exact hlk m (List.mem_cons_of_mem _ hm))
      (by
        intro m hm
        show isDirAt (addToCat (removeRootFile st.fs n) (classifyName n)
          (resolveOrg (catNames st.fs (classifyName n)) n)) (classifyName m) = true
        rw [eff1]
        exact hdir m (List.mem_cons_of_mem _ hm))
    have hfsnodup : (rootFiles st.fs).Nodup :=
      (rootFiles_sublist_rootNames st.fs).nodup hnd
    refine ⟨?_, ?_, ih3, ?_, ?_⟩
    · rw [ih1]
      have hrw : rootFiles (addToCat (removeRootFile st.fs n) (classifyName n)
          (resolveOrg (catNames st.fs (classifyName n)) n)) = (rootFiles st.fs).erase n :=
        eff3
      rw [hrw, hfsnodup.erase_eq_filter, List.filter_filter]
      apply List.filter_congr
      intro a _
      by_cases han : a = n
      · subst han
        simp
      · by_cases har : a ∈ rest
        · simp [han, har]
        · simp [han, har]
    · intro d
      rw [ih2]
      exact eff1 d
    · rw [ih4]
      show st.moved + 1 + rest.length = st.moved + (rest.length + 1)
      omega
    · exact ih5

theorem lookup1_dirsMap (ds : List String) (c : String) (h : c ∈ ds) :
    lookup1 (ds.map fun d => Ent1.dir d []) c = some (.dir c []) := by
  induction ds with
  | nil => simp at h
  | cons d rest ih =>
    rw [List.map_cons, lookup1_cons]
    by_cases hd : d = c
    · subst hd
      rw [if_pos (show (Ent1.dir d []).name = d from rfl)]
    · rw [if_neg (by simpa [Ent1.name] using hd)]
      rcases List.mem_cons.mp h with rfl | h'
      · exact absurd rfl hd
      · exact ih h'

theorem rootNames_dirsMap (ds : List String) :
    rootNames (ds.map fun d => Ent1.dir d []) = ds := by
  induction ds with
  | nil => rfl
  | cons d rest ih =>
    simp only [List.map_cons, rootNames, Ent1.name] at ih ⊢
    exact congrArg (d :: ·) ih

theorem rootFiles_dirsMap (ds : List String) :
    rootFiles (ds.map fun d => Ent1.dir d []) = [] := by
  induction ds with
  | nil => rfl
  | cons d rest ih => simpa [rootFiles] using ih

/-- A folder with no regular files directly under the root: organize is
a complete no-op, reporting all-zero statistics. -/
theorem organize_no_files (g : List Ent1) (mk : String → Bool) (mv : Nat → Bool)
    (h : rootFiles g = []) :
    organize (.dir g) mk mv = .ok (.stats ⟨0, 0, 0, [], []⟩, .dir g, []) := by
  have hcc : createCats mk (neededCats []) g [] = some (g, []) := rfl
  simp [organize, h, hcc, orgLoop_nil]

/-- **C9, counterexample.**  For the folder `{Images (a regular file),
x.jpg}`, the first organize call skips `x.jpg` (its category folder
`Images` is blocked by the equally-named root file, which itself moves
away to `Others`), so `x.jpg` is still a direct child at the second
call, which reports `total_files = 1`, not `0`. -/
theorem C9_counterexample :
    (orgStatsOf (organize (orgRootOf (organize (.dir [.file "Images", .file "x.jpg"])
          (fun _ => false) (fun _ => false))) (fun _ => false) (fun _ => false))).map
        (fun s => s.total_files) = some 1 ∧
      (orgStatsOf (organize (.dir [.file "Images", .file "x.jpg"])
          (fun _ => false) (fun _ => false))).map (fun s => s.skipped_files) = some 1 :=
  ⟨rfl, rfl⟩

/-- **C9, amended.**  Organize is idempotent on folders whose root
files do not collide with the category-folder names: if no regular file
directly under the root is named like a table category (and names are
unique, as a real directory guarantees), a fault-free organize moves
every candidate out of the root, and a second organize immediately
after — with any oracles — reports `total_files = 0` (an all-zero
result and no filesystem change). -/
theorem C9_amended (es : List Ent1)
    (hnd : (rootNames es).Nodup)
    (hkeys : ∀ n ∈ rootFiles es, n ∉ catKeys) :
    ∃ s₁ es₁ tr₁, organize (.dir es) (fun _ => false) (fun _ => false) =
        .ok (.stats s₁, .dir es₁, tr₁) ∧
      ∀ (mk : String → Bool) (mv : Nat → Bool),
        organize (.dir es₁) mk mv = .ok (.stats ⟨0, 0, 0, [], []⟩, .dir es₁, []) := by
  obtain ⟨fs1, cats0, hc⟩ :=
    createCats_total (fun _ => false) (neededCats (rootFiles es)) (fun _ _ => rfl) es []
  obtain ⟨hkeys0, ds, hfs1, hdsnd, hdsnot, hdssub, hcover⟩ :=
    createCats_spec (fun _ => false) _ es [] fs1 cats0 hc
  have hnd1 : (rootNames fs1).Nodup := by
    rw [hfs1, rootNames_append, rootNames_dirsMap]
    rw [List.nodup_append]
    exact ⟨hnd, hdsnd, fun a ha hb => hdsnot a hb ha⟩
  have hroot1 : rootFiles fs1 = rootFiles es := by
    rw [hfs1, rootFiles_append, rootFiles_dirsMap, List.append_nil]
  have hlk1 : ∀ n ∈ rootFiles es, lookup1 fs1 n = some (.file n) := by
    intro n hn
    rw [hfs1, lookup1_append, lookup1_file_of_mem es n hnd hn]
    rfl
  have hdir1 : ∀ n ∈ rootFiles es, isDirAt fs1 (classifyName n) = true := by
    intro n hn
    rcases hcover (classifyName n) (classify_mem_needed hn) with hex | hds
    · obtain ⟨e, he⟩ := Option.isSome_iff_exists.mp (by simpa [existsAt] using hex)
      have hename : e.name = classifyName n := by
        have := List.find?_some he
        simpa using this
      cases e with
      | file k =>
        exfalso
        have hkc : k = classifyName n := hename
        have hmem : Ent1.file k ∈ es := List.mem_of_find?_eq_some he
        exact hkeys k ((mem_rootFiles_iff _ _).mpr hmem)
          (hkc ▸ classifyName_mem_catKeys n)
      | dir k es2 =>
        unfold isDirAt
        rw [hfs1, lookup1_append, he]
        rfl
    · unfold isDirAt
      rw [hfs1, lookup1_append, (lookup1_eq_none es _).mpr (hdsnot _ hds),
        Option.none_or, lookup1_dirsMap ds _ hds]
  obtain ⟨hfin, _, _, _, _⟩ := orgLoop_moves_all (rootFiles es).length (rootFiles es) 0
    ⟨fs1, 0, 0, cats0, [], []⟩ hnd1 ((rootFiles_sublist_rootNames es).nodup hnd) hlk1 hdir1
  set st := orgLoop (fun _ => false) (rootFiles es).length 0 (rootFiles es)
    (⟨fs1, 0, 0, cats0, [], []⟩ : OrgState) with hst
  have hempty : rootFiles st.fs = [] := by
    rw [hfin, hroot1]
    exact List.filter_eq_nil_iff.mpr (fun a ha => by simp [ha])
  refine ⟨⟨(rootFiles es).length, st.moved, st.skipped, st.cats, st.errors⟩,
    st.fs, st.trace, by simp [organize, hc, hst], ?_⟩
  intro mk mv
  exact organize_no_files st.fs mk mv hempty

theorem C9_witness :
    ∃ s₁ es₁ tr₁, organize (.dir [Ent1.file "a.png"]) (fun _ => false) (fun _ => false) =
        .ok (.stats s₁, .dir es₁, tr₁) ∧
      ∀ (mk : String → Bool) (mv : Nat → Bool),
        organize (.dir es₁) mk mv = .ok (.stats ⟨0, 0, 0, [], []⟩, .dir es₁, []) :=
  C9_amended [Ent1.file "a.png"] (by decide) (by decide)

/-- A fault-free, collision-free organize loop: every candidate is
moved into its category folder *under its original name* (the collision
loop never renames), the root keeps exactly the non-candidate entries,
and each category folder gains exactly its candidates, in order. -/
theorem orgLoop_clean (total : Nat) (files : List String) :
    ∀ (idx : Nat) (st : OrgState),
      (rootNames st.fs).Nodup →
      files.Nodup →
      (∀ n ∈ files, lookup1 st.fs n = some (.file n)) →
      (∀ n ∈ files, isDirAt st.fs (classifyName n) = true) →
      (∀ n ∈ files, catHas st.fs (classifyName n) n = false) →
      rootFiles (orgLoop (fun _ => false) total idx files st).fs =
          (rootFiles st.fs).filter (fun n => decide (n ∉ files)) ∧
        rootNames (orgLoop (fun _ => false) total idx files st).fs =
          (rootNames st.fs).filter (fun n => decide (n ∉ files)) ∧
        (∀ d, isDirAt (orgLoop (fun _ => false) total idx files st).fs d = isDirAt st.fs d) ∧
        (∀ c, dirEntries (orgLoop (fun _ => false) total idx files st).fs c =
          dirEntries st.fs c ++
            (files.filter (fun n => classifyName n = c)).map Ent2.file) ∧
        (orgLoop (fun _ => false) total idx files st).moved = st.moved + files.length := by
  induction files with
  | nil =>
    intro idx st hnd _ _ _ _
    rw [orgLoop_nil]
    refine ⟨by simp, by simp, fun d => rfl, fun c => by simp, rfl⟩
  | cons n rest ih =>
    intro idx st hnd hfnd hlk hdir hfree
    rw [orgLoop_cons]
    have hl := hlk n (List.mem_cons_self _ _)
    have hd := hdir n (List.mem_cons_self _ _)
    have hnotin : n ∉ catNames st.fs (classifyName n) := by
      intro hmem
      have := (catHas_iff st.fs (classifyName n) n).mpr hmem
      rw [hfree n (List.mem_cons_self _ _)] at this
      exact Bool.noConfusion this
    have hres : resolveOrg (catNames st.fs (classifyName n)) n = n :=
      (resolveOrg_spec _ _).2.1 hnotin
    have hmv : moveIntoCat st.fs n (classifyName n)
        (resolveOrg (catNames st.fs (classifyName n)) n) =
        some (addToCat (removeRootFile st.fs n) (classifyName n) n) := by
      rw [hres]
      exact moveIntoCat_eq _ _ _ _ hl hd (hfree n (List.mem_cons_self _ _))
    have hstep : orgStep (fun _ => false) total idx n st =
        { st with
          fs := addToCat (removeRootFile st.fs n) (classifyName n) n
          moved := st.moved + 1
          cats := bumpCat st.cats (classifyName n)
          trace := st.trace ++ [Event.progress (idx + 1) total n, Event.attempt n true] } := by
      rw [orgStep_eq]
      rw [show (if (fun _ : Nat => false) idx then none else moveIntoCat st.fs n (classifyName n)
          (resolveOrg (catNames st.fs (classifyName n)) n)) =
          some (addToCat (removeRootFile st.fs n) (classifyName n) n) by
        simpa using hmv]
    obtain ⟨eff1, eff2, eff3, eff4, eff5, eff6⟩ :=
      move_effects st.fs n (classifyName n) n hnd hl hd
    rw [hstep]
    have hnrest : n ∉ rest := (List.nodup_cons.mp hfnd).1
    have hmcat : ∀ m ∈ rest, m ≠ classifyName n := by
      intro m hm he
      have h1 := hlk m (List.mem_cons_of_mem _ hm)
      rw [he] at h1
      unfold isDirAt at hd
      rw [h1] at hd
      exact Bool.noConfusion hd
    obtain ⟨ih1, ih2, ih3, ih4, ih5⟩ := ih (idx + 1)
      { st with
        fs := addToCat (removeRootFile st.fs n) (classifyName n) n
        moved := st.moved + 1
        cats := bumpCat st.cats (classifyName n)
        trace := st.trace ++ [Event.progress (idx + 1) total n, Event.attempt n true] }
      (by
        show (rootNames (addToCat (removeRootFile st.fs n) (classifyName n) n)).Nodup
        rw [eff2]
        exact hnd.erase n)
      (List.nodup_cons.mp hfnd).2
      (by
        intro m hm
        show lookup1 (addToCat (removeRootFile st.fs n) (classifyName n) n) m =
          some (.file m)
        rw [eff4 m (fun he => hnrest (he ▸ hm)) (hmcat m hm)]
        exact hlk m (List.mem_cons_of_mem _ hm))
      (by
        intro m hm
        show isDirAt (addToCat (removeRootFile st.fs n) (classifyName n) n)
          (classifyName m) = true
        rw [eff1]
        exact hdir m (List.mem_cons_of_mem _ hm))
      (by
        intro m hm
        show catHas (addToCat (removeRootFile st.fs n) (classifyName n) n)
          (classifyName m) m = false
        rw [← Bool.not_eq_true]
        intro hh
        have hmem := (catHas_iff _ _ _).mp hh
        unfold catNames at hmem
        by_cases hcc : classifyName m = classifyName n
        · rw [hcc, eff5] at hmem
          rw [List.map_append] at hmem
          rcases List.mem_append.mp hmem with hmem | hmem
          · have hct : catHas st.fs (classifyName m) m = true := by
              rw [hcc]
              exact (catHas_iff _ _ _).mpr hmem
            have hf := hfree m (List.mem_cons_of_mem _ hm)
            rw [hct] at hf
            exact Bool.noConfusion hf
          · simp only [List.map_cons, List.map_nil, Ent2.name] at hmem
            rcases List.mem_singleton.mp hmem with rfl
            exact hnrest hm
        · rw [eff6 _ hcc] at hmem
          have hct : catHas st.fs (classifyName m) m = true := (catHas_iff _ _ _).mpr hmem
          have hf := hfree m (List.mem_cons_of_mem _ hm)
          rw [hct] at hf
          exact Bool.noConfusion hf)
    have hfsnodup : (rootFiles st.fs).Nodup :=
      (rootFiles_sublist_rootNames st.fs).nodup hnd
    refine ⟨?_, ?_, ?_, ?_, ?_⟩
    · rw [ih1]
      have hrw : rootFiles (addToCat (removeRootFile st.fs n) (classifyName n) n) =
          (rootFiles st.fs).erase n := eff3
      rw [hrw, hfsnodup.erase_eq_filter, List.filter_filter]
      apply List.filter_congr
      intro a _
      by_cases han : a = n
      · subst han
        simp
      · by_cases har : a ∈ rest
        · simp [han, har]
        · simp [han, har]
    · rw [ih2]
      have hrw : rootNames (addToCat (removeRootFile st.fs n) (classifyName n) n) =
          (rootNames st.fs).erase n := eff2
      rw [hrw, hnd.erase_eq_filter, List.filter_filter]
      apply List.filter_congr
      intro a _
      by_cases han : a = n
      · subst han
        simp
      · by_cases har : a ∈ rest
        · simp [han, har]
        · simp [han, har]
    · intro d
      rw [ih3]
      exact eff1 d
    · intro c
      rw [ih4]
      by_cases hcc : c = classifyName n
      · subst hcc
        rw [eff5]
        rw [show (n :: rest).filter (fun m => decide (classifyName m = classifyName n)) =
            n :: rest.filter (fun m => decide (classifyName m = classifyName n)) by
          simp [List.filter_cons]]
        simp [List.append_assoc]
      · rw [eff6 c hcc]
        have hne : ¬ classifyName n = c := fun he => hcc he.symm
        rw [show (n :: rest).filter (fun m => decide (classifyName m = c)) =
            rest.filter (fun m => decide (classifyName m = c)) by
          simp [List.filter_cons, hne]]
    · rw [ih5]
      show st.moved + 1 + rest.length = st.moved + (rest.length + 1)
      omega

theorem filesOf_append (a b : List Ent2) : filesOf (a ++ b) = filesOf a ++ filesOf b :=
  List.filterMap_append _ _ _

theorem dirsOf_append (a b : List Ent2) : dirsOf (a ++ b) = dirsOf a ++ dirsOf b :=
  List.filterMap_append _ _ _

theorem filesOf_mapFile (ns : List String) : filesOf (ns.map Ent2.file) = ns := by
  induction ns with
  | nil => rfl
  | cons n rest ih =>
    simp only [List.map_cons, filesOf, List.filterMap_cons] at ih ⊢
    exact congrArg (n :: ·) ih

theorem dirsOf_mapFile (ns : List String) : dirsOf (ns.map Ent2.file) = [] := by
  induction ns with
  | nil => rfl
  | cons n rest ih =>
    simpa only [List.map_cons, dirsOf, List.filterMap_cons] using ih

theorem filesOf_sublist_names (es : List Ent2) :
    List.Sublist (filesOf es) (es.map Ent2.name) := by
  induction es with
  | nil => exact List.Sublist.refl _
  | cons e rest ih =>
    cases e with
    | file k =>
      simp only [filesOf, List.filterMap_cons, List.map_cons]
      exact List.Sublist.cons₂ _ ih
    | dir k =>
      simp only [filesOf, List.filterMap_cons, List.map_cons]
      exact List.Sublist.cons _ ih

theorem existsAt_eq_false_iff (fs : List Ent1) (n : String) :
    existsAt fs n = false ↔ n ∉ rootNames fs := by
  rw [← Bool.not_eq_true, existsAt_iff]

theorem isDirAt_of_mem_catFiles {fs : List Ent1} {c n : String}
    (h : n ∈ catFiles fs c) : isDirAt fs c = true := by
  unfold catFiles dirEntries at h
  unfold isDirAt
  cases hl : lookup1 fs c with
  | none =>
    rw [hl] at h
    simp [filesOf] at h
  | some e =>
    cases e with
    | file k =>
      rw [hl] at h
      simp [filesOf] at h
    | dir k es => rfl

theorem mem_undoBatch_iff (fs : List Ent1) (c n : String) :
    (c, n) ∈ undoBatch fs ↔ c ∈ catKeys ∧ isDirAt fs c = true ∧ n ∈ catFiles fs c := by
  unfold undoBatch
  rw [List.mem_flatMap]
  constructor
  · rintro ⟨c', hc', hmem⟩
    rw [List.mem_map] at hmem
    obtain ⟨m, hm, he⟩ := hmem
    obtain ⟨he1, he2⟩ := Prod.mk.injEq _ _ _ _ ▸ he
    subst he1
    subst he2
    rw [List.mem_filter] at hc'
    exact ⟨hc'.1, by simpa using hc'.2, hm⟩
  · rintro ⟨h1, h2, h3⟩
    exact ⟨c, List.mem_filter.mpr ⟨h1, by simp [h2]⟩, List.mem_map.mpr ⟨n, h3, rfl⟩⟩

theorem flatMapPairs_filter_not_mem (fs : List Ent1) (c : String) :
    ∀ (keys : List String), c ∉ keys →
      ((keys.filter (fun k => isDirAt fs k)).flatMap
        (fun k => (catFiles fs k).map (fun n => (k, n)))).filter
          (fun p => p.1 = c) = [] := by
  intro keys
  induction keys with
  | nil => intro _; rfl
  | cons k rest ih =>
    intro hc
    have hkc : k ≠ c := fun he => hc (he ▸ List.mem_cons_self _ _)
    have hrest : c ∉ rest := fun hr => hc (List.mem_cons_of_mem _ hr)
    by_cases hk : isDirAt fs k = true
    · rw [List.filter_cons_of_pos (by simp [hk]), List.flatMap_cons, List.filter_append,
        ih hrest, List.append_nil]
      apply List.filter_eq_nil_iff.mpr
      intro p hp
      rw [List.mem_map] at hp
      obtain ⟨m, _, rfl⟩ := hp
      simp [hkc]
    · rw [List.filter_cons_of_neg (by simp [hk])]
      exact ih hrest

theorem undoBatch_filter_mem (fs : List Ent1) (c : String) (hc : c ∈ catKeys)
    (hd : isDirAt fs c = true) :
    (undoBatch fs).filter (fun p => p.1 = c) = (catFiles fs c).map (fun n => (c, n)) := by
  unfold undoBatch
  have main : ∀ (keys : List String), keys.Nodup → c ∈ keys →
      ((keys.filter (fun k => isDirAt fs k)).flatMap
        (fun k => (catFiles fs k).map (fun n => (k, n)))).filter (fun p => p.1 = c) =
      (catFiles fs c).map (fun n => (c, n)) := by
    intro keys
    induction keys with
    | nil => intro _ h; simp at h
    | cons k rest ih =>
      intro hnd hmem
      have hnd' : rest.Nodup := (List.nodup_cons.mp hnd).2
      by_cases hkc : k = c
      · subst hkc
        have hrest : k ∉ rest := (List.nodup_cons.mp hnd).1
        rw [List.filter_cons_of_pos (by simp [hd]), List.flatMap_cons, List.filter_append,
          flatMapPairs_filter_not_mem fs k rest hrest, List.append_nil]
        apply List.filter_eq_self.mpr
        intro p hp
        rw [List.mem_map] at hp
        obtain ⟨m, _, rfl⟩ := hp
        simp
      · have hmem' : c ∈ rest := by
          rcases List.mem_cons.mp hmem with rfl | h
          · exact absurd rfl hkc
          · exact h
        by_cases hk : isDirAt fs k = true
        · rw [List.filter_cons_of_pos (by simp [hk]), List.flatMap_cons, List.filter_append,
            ih hnd' hmem']
          rw [show ((catFiles fs k).map (fun n => (k, n))).filter (fun p => p.1 = c) = []
            from List.filter_eq_nil_iff.mpr (by
              intro p hp
              rw [List.mem_map] at hp
              obtain ⟨m, _, rfl⟩ := hp
              simp [hkc])]
          rw [List.nil_append]
        · rw [List.filter_cons_of_neg (by simp [hk])]
          exact ih hnd' hmem'
  exact main catKeys (by decide) hc

theorem undoBatch_filter_not_dir (fs : List Ent1) (c : String)
    (h : ¬ (c ∈ catKeys ∧ isDirAt fs c = true)) :
    (undoBatch fs).filter (fun p => p.1 = c) = [] := by
  unfold undoBatch
  apply List.filter_eq_nil_iff.mpr
  intro p hp
  rw [List.mem_flatMap] at hp
  obtain ⟨k, hk, hmem⟩ := hp
  rw [List.mem_map] at hmem
  obtain ⟨m, _, rfl⟩ := hmem
  rw [List.mem_filter] at hk
  simp only [decide_eq_true_eq]
  intro he
  subst he
  exact h ⟨hk.1, by simpa using hk.2⟩

/-- A fault-free, collision-free undo loop: every batch file lands at
the root under its original name, root entries only grow by the
restored names, directory-ness is unchanged, and a category folder
whose file list was exactly the batch's share for it ends with no file
entries and unchanged subdirectories. -/
theorem undoLoop_clean (total : Nat) (batch : List (String × String)) :
    ∀ (idx : Nat) (st : UndoState),
      (rootNames st.fs).Nodup →
      (batch.map (fun p => p.2)).Nodup →
      (∀ p ∈ batch, p.2 ∈ catFiles st.fs p.1) →
      (∀ p ∈ batch, existsAt st.fs p.2 = false) →
      (∀ c, ((batch.filter (fun p => p.1 = c)).map (fun p => p.2) =
          filesOf (dirEntries st.fs c)) ∨ batch.filter (fun p => p.1 = c) = []) →
      (∀ m, Ent1.file m ∈ st.fs →
          Ent1.file m ∈ (undoLoop (fun _ => false) total idx batch st).fs) ∧
        (∀ p ∈ batch, Ent1.file p.2 ∈ (undoLoop (fun _ => false) total idx batch st).fs) ∧
        rootNames (undoLoop (fun _ => false) total idx batch st).fs =
          rootNames st.fs ++ batch.map (fun p => p.2) ∧
        (∀ d, isDirAt (undoLoop (fun _ => false) total idx batch st).fs d =
          isDirAt st.fs d) ∧
        (∀ c, (batch.filter (fun p => p.1 = c)).map (fun p => p.2) =
            filesOf (dirEntries st.fs c) →
          filesOf (dirEntries (undoLoop (fun _ => false) total idx batch st).fs c) = [] ∧
          dirsOf (dirEntries (undoLoop (fun _ => false) total idx batch st).fs c) =
            dirsOf (dirEntries st.fs c)) ∧
        (∀ c, batch.filter (fun p => p.1 = c) = [] →
          dirEntries (undoLoop (fun _ => false) total idx batch st).fs c =
            dirEntries st.fs c) := by
  induction batch with
  | nil =>
    intro idx st hnd _ _ _ _
    rw [undoLoop_nil]
    exact ⟨fun m hm => hm, fun p hp => absurd hp (by simp), by simp, fun d => rfl,
      fun c hc => ⟨by simpa using hc.symm, rfl⟩, fun c _ => rfl⟩
  | cons p0 rest ih =>
    obtain ⟨c0, n0⟩ := p0
    intro idx st hnd hbnd hsrc hdst hc
    rw [undoLoop_cons]
    have hsrc0 : n0 ∈ catFiles st.fs c0 := hsrc (c0, n0) (List.mem_cons_self _ _)
    have hdst0 : existsAt st.fs n0 = false := hdst (c0, n0) (List.mem_cons_self _ _)
    have hn0root : n0 ∉ rootNames st.fs := (existsAt_eq_false_iff _ _).mp hdst0
    have hres : resolveUndo (rootNames st.fs) n0 = n0 := (resolveUndo_spec _ _).2.1 hn0root
    have hd0 : isDirAt st.fs c0 = true := isDirAt_of_mem_catFiles hsrc0
    have hmv : moveToRoot st.fs c0 n0 (resolveUndo (rootNames st.fs) n0) =
        some (removeFromCat st.fs c0 n0 ++ [Ent1.file n0]) := by
      rw [hres]
      exact moveToRoot_eq _ _ _ _ hsrc0 hdst0
    have hstep : undoStep (fun _ => false) total idx (c0, n0) st =
        { st with
          fs := removeFromCat st.fs c0 n0 ++ [Ent1.file n0]
          moved := st.moved + 1
          trace := st.trace ++ [Event.progress (idx + 1) total n0, Event.attempt n0 true] } := by
      rw [undoStep_eq]
      rw [show (if (fun _ : Nat => false) idx then none else moveToRoot st.fs (c0, n0).1
          (c0, n0).2 (resolveUndo (rootNames st.fs) (c0, n0).2)) =
          some (removeFromCat st.fs c0 n0 ++ [Ent1.file n0]) by
        simpa using hmv]
    rw [hstep]
    -- effects of the one move
    have heff_names : rootNames (removeFromCat st.fs c0 n0 ++ [Ent1.file n0]) =
        rootNames st.fs ++ [n0] := by
      rw [rootNames_append, removeFromCat_rootNames]
      rfl
    have heff_dir : ∀ d, isDirAt (removeFromCat st.fs c0 n0 ++ [Ent1.file n0]) d =
        isDirAt st.fs d := by
      intro d
      rw [isDirAt_append_file, removeFromCat_isDirAt]
    have heff_ent_self : dirEntries (removeFromCat st.fs c0 n0 ++ [Ent1.file n0]) c0 =
        removeEnt2 (dirEntries st.fs c0) n0 := by
      rw [dirEntries_append_file, removeFromCat_dirEntries_self _ _ _ hd0]
    have heff_ent_ne : ∀ c, c ≠ c0 →
        dirEntries (removeFromCat st.fs c0 n0 ++ [Ent1.file n0]) c = dirEntries st.fs c := by
      intro c hcne
      rw [dirEntries_append_file, removeFromCat_dirEntries_ne _ _ _ _ hcne]
    -- the c0 share of the batch is the full file list of c0
    have hfull0 : (((c0, n0) :: rest).filter (fun p => p.1 = c0)).map (fun p => p.2) =
        filesOf (dirEntries st.fs c0) := by
      rcases hc c0 with h | h
      · exact h
      · exfalso
        have : (c0, n0) ∈ ((c0, n0) :: rest).filter (fun p => p.1 = c0) :=
          List.mem_filter.mpr ⟨List.mem_cons_self _ _, by simp⟩
        rw [h] at this
        simp at this
    have hfilter0 : ((c0, n0) :: rest).filter (fun p => p.1 = c0) =
        (c0, n0) :: rest.filter (fun p => p.1 = c0) := by
      rw [List.filter_cons_of_pos (by simp)]
    have hfiles0 : filesOf (dirEntries st.fs c0) =
        n0 :: (rest.filter (fun p => p.1 = c0)).map (fun p => p.2) := by
      rw [← hfull0, hfilter0, List.map_cons]
    have hrm0 : filesOf (removeEnt2 (dirEntries st.fs c0) n0) =
        (rest.filter (fun p => p.1 = c0)).map (fun p => p.2) :=
      removeEnt2_filesOf_head _ _ _ hfiles0
    have hbnd' : (rest.map (fun p => p.2)).Nodup := (List.nodup_cons.mp (by simpa using hbnd)).2
    have hn0rest : n0 ∉ rest.map (fun p => p.2) :=
      (List.nodup_cons.mp (by simpa using hbnd)).1
    -- apply the induction hypothesis to the post-step state
    obtain ⟨ih0, ih1, ih2, ih3, ih4, ih5⟩ := ih (idx + 1)
      { st with
        fs := removeFromCat st.fs c0 n0 ++ [Ent1.file n0]
        moved := st.moved + 1
        trace := st.trace ++ [Event.progress (idx + 1) total n0, Event.attempt n0 true] }
      (by
        show (rootNames (removeFromCat st.fs c0 n0 ++ [Ent1.file n0])).Nodup
        rw [heff_names]
        rw [List.nodup_append]
        exact ⟨hnd, List.nodup_singleton _, by
          intro a ha hb
          rcases List.mem_singleton.mp hb with rfl
          exact hn0root ha⟩)
      hbnd'
      (by
        intro q hq
        show q.2 ∈ catFiles (removeFromCat st.fs c0 n0 ++ [Ent1.file n0]) q.1
        rw [catFiles_eq_filesOf]
        by_cases hq1 : q.1 = c0
        · rw [hq1, heff_ent_self, hrm0]
          exact List.mem_map.mpr ⟨q, List.mem_filter.mpr ⟨hq, by simp [hq1]⟩, rfl⟩
        · rw [heff_ent_ne _ hq1]
          exact hsrc q (List.mem_cons_of_mem _ hq))
      (by
        intro q hq
        show existsAt (removeFromCat st.fs c0 n0 ++ [Ent1.file n0]) q.2 = false
        rw [existsAt_eq_false_iff, heff_names]
        intro hmem
        rcases List.mem_append.mp hmem with hmem | hmem
        · exact (existsAt_eq_false_iff _ _).mp (hdst q (List.mem_cons_of_mem _ hq)) hmem
        · rcases List.mem_singleton.mp hmem with he
          exact hn0rest (he ▸ List.mem_map.mpr ⟨q, hq, rfl⟩))
      (by
        intro c
        by_cases hcc : c = c0
        · subst hcc
          left
          show (rest.filter (fun p => p.1 = c)).map (fun p => p.2) =
            filesOf (dirEntries (removeFromCat st.fs c n0 ++ [Ent1.file n0]) c)
          rw [heff_ent_self, hrm0]
        · rcases hc c with h | h
          · left
            show (rest.filter (fun p => p.1 = c)).map (fun p => p.2) =
              filesOf (dirEntries (removeFromCat st.fs c0 n0 ++ [Ent1.file n0]) c)
            rw [heff_ent_ne _ hcc, ← h, List.filter_cons_of_neg (by simpa using Ne.symm hcc)]
          · right
            rw [List.filter_cons_of_neg (by simpa using Ne.symm hcc)] at h
            exact h)
    refine ⟨?_, ?_, ?_, ?_, ?_, ?_⟩
    · intro m hm
      apply ih0
      show Ent1.file m ∈ removeFromCat st.fs c0 n0 ++ [Ent1.file n0]
      exact List.mem_append_left _ (removeFromCat_mem_file _ _ hm)
    · intro q hq
      rcases List.mem_cons.mp hq with rfl | hq
      · apply ih0
        show Ent1.file (c0, n0).2 ∈ removeFromCat st.fs c0 n0 ++ [Ent1.file n0]
        exact List.mem_append_right _ (List.mem_singleton.mpr rfl)
      · exact ih1 q hq
    · rw [ih2]
      show rootNames (removeFromCat st.fs c0 n0 ++ [Ent1.file n0]) ++
          rest.map (fun p => p.2) =
        rootNames st.fs ++ ((c0, n0) :: rest).map (fun p => p.2)
      rw [heff_names, List.map_cons, List.append_assoc]
      rfl
    · intro d
      rw [ih3]
      exact heff_dir d
    · intro c hcfull
      by_cases hcc : c = c0
      · subst hcc
        have := ih4 c (by
          show (rest.filter (fun p => p.1 = c)).map (fun p => p.2) =
            filesOf (dirEntries (removeFromCat st.fs c n0 ++ [Ent1.file n0]) c)
          rw [heff_ent_self, hrm0])
        refine ⟨this.1, ?_⟩
        rw [this.2]
        show dirsOf (dirEntries (removeFromCat st.fs c n0 ++ [Ent1.file n0]) c) =
          dirsOf (dirEntries st.fs c)
        rw [heff_ent_self, removeEnt2_dirsOf]
      · have hcfull' : (rest.filter (fun p => p.1 = c)).map (fun p => p.2) =
            filesOf (dirEntries (removeFromCat st.fs c0 n0 ++ [Ent1.file n0]) c) := by
          rw [heff_ent_ne _ hcc]
          rw [List.filter_cons_of_neg (by simpa using Ne.symm hcc)] at hcfull
          exact hcfull
        have := ih4 c hcfull'
        refine ⟨this.1, ?_⟩
        rw [this.2]
        show dirsOf (dirEntries (removeFromCat st.fs c0 n0 ++ [Ent1.file n0]) c) =
          dirsOf (dirEntries st.fs c)
        rw [heff_ent_ne _ hcc]
    · intro c hcempty
      have hcc : c ≠ c0 := by
        intro he
        subst he
        rw [hfilter0] at hcempty
        exact List.noConfusion hcempty
      rw [List.filter_cons_of_neg (by simpa using Ne.symm hcc)] at hcempty
      rw [ih5 c hcempty]
      exact heff_ent_ne _ hcc

/-! ## Cleanup-pass lemmas -/

theorem rootNames_removeRootEntry (fs : List Ent1) (c : String) :
    rootNames (removeRootEntry fs c) = (rootNames fs).erase c := by
  induction fs with
  | nil => rfl
  | cons e rest ih =>
    by_cases hk : e.name = c
    · rw [show removeRootEntry (e :: rest) c = rest by simp [removeRootEntry, hk]]
      simp only [rootNames, List.map_cons]
      rw [hk, List.erase_cons_head]
    · rw [show removeRootEntry (e :: rest) c = e :: removeRootEntry rest c
          by simp [removeRootEntry, hk]]
      simp only [rootNames, List.map_cons]
      rw [List.erase_cons_tail (by simp [hk])]
      exact congrArg (e.name :: ·) ih

theorem removeRootEntry_lookup_ne (fs : List Ent1) (c m : String) (hm : m ≠ c) :
    lookup1 (removeRootEntry fs c) m = lookup1 fs m := by
  induction fs with
  | nil => rfl
  | cons e rest ih =>
    by_cases hk : e.name = c
    · rw [show removeRootEntry (e :: rest) c = rest by simp [removeRootEntry, hk]]
      rw [lookup1_cons, if_neg (by rw [hk]; exact fun he => hm he.symm)]
    · rw [show removeRootEntry (e :: rest) c = e :: removeRootEntry rest c
          by simp [removeRootEntry, hk]]
      rw [lookup1_cons, lookup1_cons, ih]

theorem removeRootEntry_mem_file {fs : List Ent1} {n : String} (c : String)
    (h : Ent1.file n ∈ fs) (hne : n ≠ c) : Ent1.file n ∈ removeRootEntry fs c := by
  induction fs with
  | nil => simp at h
  | cons e rest ih =>
    by_cases hk : e.name = c
    · rw [show removeRootEntry (e :: rest) c = rest by simp [removeRootEntry, hk]]
      rcases List.mem_cons.mp h with he | he
      · exfalso
        rw [← he] at hk
        exact hne hk
      · exact he
    · rw [show removeRootEntry (e :: rest) c = e :: removeRootEntry rest c
          by simp [removeRootEntry, hk]]
      rcases List.mem_cons.mp h with he | he
      · exact List.mem_cons.mpr (Or.inl he)
      · exact List.mem_cons.mpr (Or.inr (ih he))

theorem cleanup_sublist : ∀ (keys : List String) (fs : List Ent1),
    List.Sublist (cleanup keys fs) fs := by
  intro keys
  induction keys with
  | nil => intro fs; exact List.Sublist.refl _
  | cons k rest ih =>
    intro fs
    show List.Sublist (cleanup (k :: rest) fs) fs
    by_cases hk : isDirAt fs k = true ∧ dirEntries fs k = []
    · rw [show cleanup (k :: rest) fs = cleanup rest (removeRootEntry fs k)
          by simp [cleanup, hk]]
      exact (ih (removeRootEntry fs k)).trans (removeRootEntry_sublist fs k)
    · rw [show cleanup (k :: rest) fs = cleanup rest fs by simp [cleanup, hk]]
      exact ih fs

theorem existsAt_cleanup_false (keys : List String) (fs : List Ent1) (c : String)
    (h : existsAt fs c = false) : existsAt (cleanup keys fs) c = false := by
  rw [existsAt_eq_false_iff] at h ⊢
  intro hmem
  exact h (((cleanup_sublist keys fs).map Ent1.name).subset hmem)

theorem file_not_mem_of_isDirAt {fs : List Ent1} {c : String}
    (hnd : (rootNames fs).Nodup) (hd : isDirAt fs c = true) : Ent1.file c ∉ fs := by
  intro hmem
  have := lookup1_file_of_mem fs c hnd ((mem_rootFiles_iff _ _).mpr hmem)
  unfold isDirAt at hd
  rw [this] at hd
  exact Bool.noConfusion hd

theorem cleanup_preserves_files : ∀ (keys : List String) (fs : List Ent1) (n : String),
    (rootNames fs).Nodup → Ent1.file n ∈ fs → Ent1.file n ∈ cleanup keys fs := by
  intro keys
  induction keys with
  | nil => intro fs n _ h; exact h
  | cons k rest ih =>
    intro fs n hnd h
    by_cases hk : isDirAt fs k = true ∧ dirEntries fs k = []
    · rw [show cleanup (k :: rest) fs = cleanup rest (removeRootEntry fs k)
          by simp [cleanup, hk]]
      have hne : n ≠ k := by
        intro he
        exact file_not_mem_of_isDirAt hnd hk.1 (he ▸ h)
      apply ih
      · rw [rootNames_removeRootEntry]
        exact hnd.erase k
      · exact removeRootEntry_mem_file k h hne
    · rw [show cleanup (k :: rest) fs = cleanup rest fs by simp [cleanup, hk]]
      exact ih fs n hnd h

theorem cleanup_removes : ∀ (keys : List String) (fs : List Ent1) (c : String),
    (rootNames fs).Nodup → c ∈ keys → isDirAt fs c = true → dirEntries fs c = [] →
    existsAt (cleanup keys fs) c = false := by
  intro keys
  induction keys with
  | nil => intro fs c _ hc; simp at hc
  | cons k rest ih =>
    intro fs c hnd hc hd he
    by_cases hkc : k = c
    · subst hkc
      rw [show cleanup (k :: rest) fs = cleanup rest (removeRootEntry fs k)
          by simp [cleanup, hd, he]]
      apply existsAt_cleanup_false
      rw [existsAt_eq_false_iff, rootNames_removeRootEntry]
      exact hnd.not_mem_erase
    · have hc' : c ∈ rest := by
        rcases List.mem_cons.mp hc with rfl | h
        · exact absurd rfl hkc
        · exact h
      by_cases hk : isDirAt fs k = true ∧ dirEntries fs k = []
      · rw [show cleanup (k :: rest) fs = cleanup rest (removeRootEntry fs k)
            by simp [cleanup, hk]]
        apply ih
        · rw [rootNames_removeRootEntry]
          exact hnd.erase k
        · exact hc'
        · unfold isDirAt
          rw [removeRootEntry_lookup_ne fs k c (fun h => hkc h.symm)]
          exact hd
        · unfold dirEntries
          rw [removeRootEntry_lookup_ne fs k c (fun h => hkc h.symm)]
          exact he
      · rw [show cleanup (k :: rest) fs = cleanup rest fs by simp [cleanup, hk]]
        exact ih fs c hnd hc' hd he

theorem lookup1_dirsMap_shape (ds : List String) (x : String) :
    lookup1 (ds.map fun d => Ent1.dir d []) x = none ∨
      lookup1 (ds.map fun d => Ent1.dir d []) x = some (.dir x []) := by
  induction ds with
  | nil => exact Or.inl rfl
  | cons d rest ih =>
    rw [List.map_cons, lookup1_cons]
    by_cases hd : (Ent1.dir d []).name = x
    · right
      rw [if_pos hd]
      have : d = x := hd
      rw [this]
    · rw [if_neg hd]
      exact ih

theorem neededCats_subset_catKeys (files : List String) : ∀ c ∈ neededCats files, c ∈ catKeys := by
  intro c hc
  unfold neededCats at hc
  exact (List.mem_filter.mp hc).1

/-- The whole organize pass on a clean folder (unique names, no root
file named like a category, no candidate name already present in its
category folder): every candidate is moved under its original name,
and the effect on the tree is exactly "each category folder gains its
candidates". -/
theorem organize_clean_phase (es : List Ent1)
    (hnd : (rootNames es).Nodup)
    (hkeys : ∀ n ∈ rootFiles es, n ∉ catKeys)
    (hfreeES : ∀ n ∈ rootFiles es, catHas es (classifyName n) n = false) :
    ∃ st : OrgState,
      organize (.dir es) (fun _ => false) (fun _ => false) =
          .ok (.stats ⟨(rootFiles es).length, st.moved, st.skipped, st.cats, st.errors⟩,
            .dir st.fs, st.trace) ∧
        st.moved = (rootFiles es).length ∧
        rootFiles st.fs = [] ∧
        (rootNames st.fs).Nodup ∧
        (∀ c, dirEntries st.fs c = dirEntries es c ++
          ((rootFiles es).filter (fun n => decide (classifyName n = c))).map Ent2.file) ∧
        (∀ n ∈ rootFiles es, isDirAt st.fs (classifyName n) = true) ∧
        (∀ x ∈ rootNames st.fs, x ∈ rootNames es ∨ x ∈ catKeys) ∧
        (∀ x ∈ rootFiles es, x ∉ rootNames st.fs) ∧
        (∀ c, c ∉ rootNames es → isDirAt st.fs c = false → c ∉ rootNames st.fs) := by
  obtain ⟨fs1, cats0, hc⟩ :=
    createCats_total (fun _ => false) (neededCats (rootFiles es)) (fun _ _ => rfl) es []
  obtain ⟨hkeys0, ds, hfs1, hdsnd, hdsnot, hdssub, hcover⟩ :=
    createCats_spec (fun _ => false) _ es [] fs1 cats0 hc
  have hnd1 : (rootNames fs1).Nodup := by
    rw [hfs1, rootNames_append, rootNames_dirsMap]
    rw [List.nodup_append]
    exact ⟨hnd, hdsnd, fun a ha hb => hdsnot a hb ha⟩
  have hroot1 : rootFiles fs1 = rootFiles es := by
    rw [hfs1, rootFiles_append, rootFiles_dirsMap, List.append_nil]
  have hlk1 : ∀ n ∈ rootFiles es, lookup1 fs1 n = some (.file n) := by
    intro n hn
    rw [hfs1, lookup1_append, lookup1_file_of_mem es n hnd hn]
    rfl
  have hDE : ∀ c, dirEntries fs1 c = dirEntries es c := by
    intro c
    unfold dirEntries
    rw [hfs1, lookup1_append]
    cases h1 : lookup1 es c with
    | some e => rfl
    | none =>
      simp only [Option.none_or]
      rcases lookup1_dirsMap_shape ds c with h2 | h2
      · rw [h2]
      · rw [h2]
  have hcatNames : ∀ c, catNames fs1 c = catNames es c := by
    intro c
    unfold catNames
    rw [hDE]
  have hdir1 : ∀ n ∈ rootFiles es, isDirAt fs1 (classifyName n) = true := by
    intro n hn
    rcases hcover (classifyName n) (classify_mem_needed hn) with hex | hds
    · obtain ⟨e, he⟩ := Option.isSome_iff_exists.mp (by simpa [existsAt] using hex)
      have hename : e.name = classifyName n := by
        have := List.find?_some he
        simpa using this
      cases e with
      | file k =>
        exfalso
        have hkc : k = classifyName n := hename
        have hmem : Ent1.file k ∈ es := List.mem_of_find?_eq_some he
        exact hkeys k ((mem_rootFiles_iff _ _).mpr hmem)
          (hkc ▸ classifyName_mem_catKeys n)
      | dir k es2 =>
        unfold isDirAt
        rw [hfs1, lookup1_append, he]
        rfl
    · unfold isDirAt
      rw [hfs1, lookup1_append, (lookup1_eq_none es _).mpr (hdsnot _ hds),
        Option.none_or, lookup1_dirsMap ds _ hds]
  have hfree1 : ∀ n ∈ rootFiles es, catHas fs1 (classifyName n) n = false := by
    intro n hn
    rw [← Bool.not_eq_true]
    intro hh
    have hmem := (catHas_iff _ _ _).mp hh
    rw [hcatNames] at hmem
    have := (catHas_iff _ _ _).mpr hmem
    rw [hfreeES n hn] at this
    exact Bool.noConfusion this
  obtain ⟨cl1, cl2, cl3, cl4, cl5⟩ := orgLoop_clean (rootFiles es).length (rootFiles es) 0
    ⟨fs1, 0, 0, cats0, [], []⟩ hnd1 ((rootFiles_sublist_rootNames es).nodup hnd)
    hlk1 hdir1 hfree1
  set st := orgLoop (fun _ => false) (rootFiles es).length 0 (rootFiles es)
    (⟨fs1, 0, 0, cats0, [], []⟩ : OrgState) with hst
  have cl1' : rootFiles st.fs = (rootFiles fs1).filter (fun n => decide (n ∉ rootFiles es)) :=
    cl1
  have cl2' : rootNames st.fs = (rootNames fs1).filter (fun n => decide (n ∉ rootFiles es)) :=
    cl2
  have cl3' : ∀ d, isDirAt st.fs d = isDirAt fs1 d := cl3
  have cl4' : ∀ c, dirEntries st.fs c = dirEntries fs1 c ++
      ((rootFiles es).filter (fun n => decide (classifyName n = c))).map Ent2.file := cl4
  have cl5' : st.moved = 0 + (rootFiles es).length := cl5
  have hdsKeys : ∀ c ∈ ds, c ∈ catKeys :=
    fun c hcd => neededCats_subset_catKeys _ _ (hdssub c hcd)
  refine ⟨st, by simp [organize, hc, hst], ?_, ?_, ?_, ?_, ?_, ?_, ?_, ?_⟩
  · rw [cl5']
    omega
  · rw [cl1', hroot1]
    exact List.filter_eq_nil_iff.mpr (fun a ha => by simp [ha])
  · rw [cl2']
    exact hnd1.filter _
  · intro c
    rw [cl4', hDE]
  · intro n hn
    rw [cl3']
    exact hdir1 n hn
  · intro x hx
    rw [cl2'] at hx
    have hx1 := List.mem_of_mem_filter hx
    rw [hfs1, rootNames_append, rootNames_dirsMap] at hx1
    rcases List.mem_append.mp hx1 with h | h
    · exact Or.inl h
    · exact Or.inr (hdsKeys x h)
  · intro x hx hmem
    rw [cl2'] at hmem
    have := (List.mem_filter.mp hmem).2
    simp [hx] at this
  · intro c hces hdirf hmem
    rw [cl2'] at hmem
    have hx1 := List.mem_of_mem_filter hmem
    rw [hfs1, rootNames_append, rootNames_dirsMap] at hx1
    rcases List.mem_append.mp hx1 with h | h
    · exact hces h
    · have : isDirAt fs1 c = true := by
        unfold isDirAt
        rw [hfs1, lookup1_append, (lookup1_eq_none es _).mpr (hdsnot _ h),
          Option.none_or, lookup1_dirsMap ds _ h]
      rw [cl3' c, this] at hdirf
      exact Bool.noConfusion hdirf

/-- **C1.**  Round-trip: on a folder with no externally introduced name
collisions — unique entry names; no root file named like a category; no
name inside a pre-existing category folder clashing with a root name,
a category name, or a name in another category folder — running undo
immediately after a fault-free organize restores every file organize
moved (here: every candidate, `s₁.moved_files = total`) back to the
root under its original name, and every category folder organize
created (a table name absent from the initial root) is empty after the
restore and removed. -/
theorem C1_round_trip (es : List Ent1)
    (hnd : (rootNames es).Nodup)
    (hkeys : ∀ n ∈ rootFiles es, n ∉ catKeys)
    (hext : ∀ c ∈ catKeys, ∀ x ∈ catNames es c, x ∉ rootNames es ∧ x ∉ catKeys)
    (hextnd : (catKeys.flatMap (fun c => catFiles es c)).Nodup) :
    ∃ s₁ es₁ tr₁ s₂ es₂ tr₂,
      organize (.dir es) (fun _ => false) (fun _ => false) =
          .ok (.stats s₁, .dir es₁, tr₁) ∧
        undo (.dir es₁) (fun _ => false) = .ok (.stats s₂, .dir es₂, tr₂) ∧
        s₁.moved_files = (rootFiles es).length ∧
        (∀ n ∈ rootFiles es, Ent1.file n ∈ es₂) ∧
        (∀ c ∈ catKeys, c ∉ rootNames es → existsAt es₂ c = false) := by
  have hfreeES : ∀ n ∈ rootFiles es, catHas es (classifyName n) n = false := by
    intro n hn
    rw [← Bool.not_eq_true]
    intro hh
    have hmem := (catHas_iff _ _ _).mp hh
    exact (hext (classifyName n) (classifyName_mem_catKeys n) n hmem).1
      ((rootFiles_sublist_rootNames es).subset hn)
  obtain ⟨st, horg, hmoved, hfiles0, hnd1, hDE1, hdir1, hN1, hN2, hN3⟩ :=
    organize_clean_phase es hnd hkeys hfreeES
  have hcatF : ∀ c, catFiles st.fs c = catFiles es c ++
      (rootFiles es).filter (fun n => decide (classifyName n = c)) := by
    intro c
    rw [catFiles_eq_filesOf, hDE1 c, filesOf_append, filesOf_mapFile, catFiles_eq_filesOf]
  have hextFacts : ∀ c ∈ catKeys, ∀ x ∈ catFiles es c, x ∉ rootNames es ∧ x ∉ catKeys := by
    intro c hc x hx
    exact hext c hc x ((filesOf_sublist_names _).subset hx)
  have hbatch_mem : ∀ p ∈ undoBatch st.fs, p.1 ∈ catKeys ∧ isDirAt st.fs p.1 = true ∧
      p.2 ∈ catFiles st.fs p.1 := by
    intro p hp
    obtain ⟨c, n⟩ := p
    exact (mem_undoBatch_iff st.fs c n).mp hp
  have hbatchNames : (undoBatch st.fs).map (fun p => p.2) =
      (catKeys.filter (fun c => isDirAt st.fs c)).flatMap (fun c => catFiles st.fs c) := by
    unfold undoBatch
    rw [List.map_flatMap]
    simp [List.map_map, Function.comp]
  have hperC_nodup : ∀ c ∈ catKeys, (catFiles st.fs c).Nodup := by
    intro c hc
    rw [hcatF]
    rw [List.nodup_append]
    refine ⟨(List.nodup_flatMap.mp hextnd).1 c hc,
      ((rootFiles_sublist_rootNames es).nodup hnd).filter _, ?_⟩
    intro x hx hx2
    exact (hextFacts c hc x hx).1
      ((rootFiles_sublist_rootNames es).subset (List.mem_of_mem_filter hx2))
  have hpairKeys : catKeys.Pairwise (List.Disjoint on (fun c => catFiles st.fs c)) := by
    have hkeysnd : catKeys.Nodup := by decide
    apply hkeysnd.imp_of_mem
    intro a b ha hb hab
    intro x hxa hxb
    change x ∈ catFiles st.fs a at hxa
    change x ∈ catFiles st.fs b at hxb
    rw [hcatF] at hxa hxb
    rcases List.mem_append.mp hxa with h1 | h1 <;> rcases List.mem_append.mp hxb with h2 | h2
    · have hpw := (List.nodup_flatMap.mp hextnd).2
      have hsymm : Symmetric (List.Disjoint on (fun c => catFiles es c)) :=
        fun _ _ h => List.Disjoint.symm h
      exact (hpw.forall hsymm) ha hb hab h1 h2
    · exact (hextFacts a ha x h1).1
        ((rootFiles_sublist_rootNames es).subset (List.mem_of_mem_filter h2))
    · exact (hextFacts b hb x h2).1
        ((rootFiles_sublist_rootNames es).subset (List.mem_of_mem_filter h1))
    · have e1 := (List.mem_filter.mp h1).2
      have e2 := (List.mem_filter.mp h2).2
      simp only [decide_eq_true_eq] at e1 e2
      exact hab (e1 ▸ e2)
  have hbnd : ((undoBatch st.fs).map (fun p => p.2)).Nodup := by
    rw [hbatchNames]
    rw [List.nodup_flatMap]
    exact ⟨fun c hc => hperC_nodup c (List.mem_of_mem_filter hc),
      hpairKeys.sublist (List.filter_sublist _)⟩
  have hdstF : ∀ p ∈ undoBatch st.fs, existsAt st.fs p.2 = false := by
    intro p hp
    obtain ⟨hp1, hp2, hp3⟩ := hbatch_mem p hp
    rw [existsAt_eq_false_iff]
    rw [hcatF] at hp3
    rcases List.mem_append.mp hp3 with h | h
    · obtain ⟨hxr, hxk⟩ := hextFacts p.1 hp1 p.2 h
      intro hmem
      rcases hN1 p.2 hmem with hh | hh
      · exact hxr hh
      · exact hxk hh
    · exact hN2 p.2 (List.mem_of_mem_filter h)
  have hcFull : ∀ c, (((undoBatch st.fs).filter (fun p => p.1 = c)).map (fun p => p.2) =
      filesOf (dirEntries st.fs c)) ∨ (undoBatch st.fs).filter (fun p => p.1 = c) = [] := by
    intro c
    by_cases hcc : c ∈ catKeys ∧ isDirAt st.fs c = true
    · left
      rw [undoBatch_filter_mem st.fs c hcc.1 hcc.2, List.map_map, ← catFiles_eq_filesOf]
      simp [Function.comp]
    · right
      exact undoBatch_filter_not_dir st.fs c hcc
  obtain ⟨u0, u1, u2, u3, u4, u5⟩ := undoLoop_clean (undoBatch st.fs).length
    (undoBatch st.fs) 0 ⟨st.fs, 0, 0, [], []⟩ hnd1 hbnd
    (fun p hp => (hbatch_mem p hp).2.2) hdstF hcFull
  set ust := undoLoop (fun _ => false) (undoBatch st.fs).length 0 (undoBatch st.fs)
    (⟨st.fs, 0, 0, [], []⟩ : UndoState) with hust
  have u0' : ∀ m, Ent1.file m ∈ st.fs → Ent1.file m ∈ ust.fs := u0
  have u1' : ∀ p ∈ undoBatch st.fs, Ent1.file p.2 ∈ ust.fs := u1
  have u2' : rootNames ust.fs = rootNames st.fs ++ (undoBatch st.fs).map (fun p => p.2) := u2
  have u3' : ∀ d, isDirAt ust.fs d = isDirAt st.fs d := u3
  have u4' : ∀ c, ((undoBatch st.fs).filter (fun p => p.1 = c)).map (fun p => p.2) =
      filesOf (dirEntries st.fs c) →
      filesOf (dirEntries ust.fs c) = [] ∧
      dirsOf (dirEntries ust.fs c) = dirsOf (dirEntries st.fs c) := u4
  have hundo : undo (.dir st.fs) (fun _ => false) =
      .ok (.stats ⟨(undoBatch st.fs).length, ust.moved, ust.skipped, ust.errors⟩,
        .dir (cleanup catKeys ust.fs), ust.trace) := by
    simp [undo, hust]
  have hustnd : (rootNames ust.fs).Nodup := by
    rw [u2', List.nodup_append]
    refine ⟨hnd1, hbnd, ?_⟩
    intro a ha hb
    rw [List.mem_map] at hb
    obtain ⟨p, hp, hpe⟩ := hb
    exact (existsAt_eq_false_iff _ _).mp (hdstF p hp) (hpe ▸ ha)
  have hrestored : ∀ n ∈ rootFiles es, Ent1.file n ∈ cleanup catKeys ust.fs := by
    intro n hn
    apply cleanup_preserves_files catKeys ust.fs n hustnd
    have hbmem : (classifyName n, n) ∈ undoBatch st.fs := by
      rw [mem_undoBatch_iff]
      refine ⟨classifyName_mem_catKeys n, hdir1 n hn, ?_⟩
      rw [hcatF]
      exact List.mem_append_right _ (List.mem_filter.mpr ⟨hn, by simp⟩)
    exact u1' _ hbmem
  have hremoved : ∀ c ∈ catKeys, c ∉ rootNames es →
      existsAt (cleanup catKeys ust.fs) c = false := by
    intro c hck hces
    by_cases hdC : isDirAt st.fs c = true
    · have hfull : ((undoBatch st.fs).filter (fun p => p.1 = c)).map (fun p => p.2) =
          filesOf (dirEntries st.fs c) := by
        rw [undoBatch_filter_mem st.fs c hck hdC, List.map_map, ← catFiles_eq_filesOf]
        simp [Function.comp]
      obtain ⟨hfo, hdo⟩ := u4' c hfull
      have hdsE : dirsOf (dirEntries st.fs c) = [] := by
        rw [hDE1 c, dirsOf_append, dirsOf_mapFile, List.append_nil]
        rw [show dirEntries es c = [] from by
          unfold dirEntries
          rw [(lookup1_eq_none es c).mpr hces]]
        rfl
      have hentries : dirEntries ust.fs c = [] :=
        (ent2_nil_iff _).mpr ⟨hfo, hdo.trans hdsE⟩
      exact cleanup_removes catKeys ust.fs c hustnd hck (by rw [u3']; exact hdC) hentries
    · apply existsAt_cleanup_false
      rw [existsAt_eq_false_iff, u2']
      intro hmem
      rcases List.mem_append.mp hmem with h | h
      · exact hN3 c hces (by simpa using hdC) h
      · rw [List.mem_map] at h
        obtain ⟨p, hp, hpc⟩ := h
        obtain ⟨hp1, hp2, hp3⟩ := hbatch_mem p hp
        rw [hcatF] at hp3
        rcases List.mem_append.mp hp3 with hx | hx
        · exact (hextFacts p.1 hp1 p.2 hx).2 (hpc ▸ hck)
        · exact hces (hpc ▸ (rootFiles_sublist_rootNames es).subset
            (List.mem_of_mem_filter hx))
  exact ⟨⟨(rootFiles es).length, st.moved, st.skipped, st.cats, st.errors⟩, st.fs, st.trace,
    ⟨(undoBatch st.fs).length, ust.moved, ust.skipped, ust.errors⟩,
    cleanup catKeys ust.fs, ust.trace, horg, hundo, hmoved, hrestored, hremoved⟩

theorem C1_witness :
    ∃ s₁ es₁ tr₁ s₂ es₂ tr₂,
      organize (.dir [Ent1.file "pic.jpg", Ent1.file "doc.pdf", Ent1.dir "Keep" []])
          (fun _ => false) (fun _ => false) = .ok (.stats s₁, .dir es₁, tr₁) ∧
        undo (.dir es₁) (fun _ => false) = .ok (.stats s₂, .dir es₂, tr₂) ∧
        s₁.moved_files =
          (rootFiles [Ent1.file "pic.jpg", Ent1.file "doc.pdf", Ent1.dir "Keep" []]).length ∧
        (∀ n ∈ rootFiles [Ent1.file "pic.jpg", Ent1.file "doc.pdf", Ent1.dir "Keep" []],
          Ent1.file n ∈ es₂) ∧
        (∀ c ∈ catKeys,
          c ∉ rootNames [Ent1.file "pic.jpg", Ent1.file "doc.pdf", Ent1.dir "Keep" []] →
          existsAt es₂ c = false) :=
  C1_round_trip [Ent1.file "pic.jpg", Ent1.file "doc.pdf", Ent1.dir "Keep" []]
    (by decide) (by decide) (by decide) (by decide)

end FileOrg
